import Mathlib

/-!
Verification of the local-filesystem chunk manager
(`internal/storage/local_chunk_manager.go`).

The filesystem is embedded as a tree of nodes in first-child / next-sibling
form: a directory's children are the chain of `consDir` cells hanging off it,
kept sorted by name (mirroring `readDirNames`, which sorts entries before a
walk visits them).  A `broken` node stands for an entry whose `stat`/`lstat`
fails with an error other than "not exist" (permission failure and the like).
Byte contents are `List Nat`; modification times are `Nat`.

Path strings are manipulated exactly the way the Go standard library does on
slash-separated paths: `pathClean` is `path.Clean` (component stack with `.`
and `..` handling), `pathJoin` is `path.Join` (join then clean), `pathDir` is
`path.Dir` / `filepath.Dir`, `strStartsWith` / `trimPre` are
`strings.HasPrefix` / `strings.TrimPrefix`.  All functions are structurally
recursive so that concrete runs reduce by `rfl`.
-/

/-- Split a character list on `'/'`, keeping empty components
(`strings.Split` behaviour). -/
def splitOnSlash : List Char → List (List Char)
  | [] => [[]]
  | c :: rest =>
    let r := splitOnSlash rest
    if c = '/' then [] :: r
    else
      match r with
      | h :: t => (c :: h) :: t
      | [] => [[c]]

/-- The component-stack phase of Go `path.Clean`: drop empty and `"."`
components, resolve `".."` against the stack (discarding it at the root of a
rooted path). `stack` holds already-emitted components in reverse order. -/
def cleanComps (rooted : Bool) : List (List Char) → List (List Char) → List (List Char)
  | stack, [] => stack.reverse
  | stack, c :: rest =>
    if c = [] ∨ c = ['.'] then cleanComps rooted stack rest
    else if c = ['.', '.'] then
      match stack with
      | [] => if rooted then cleanComps rooted [] rest else cleanComps rooted [['.', '.']] rest
      | top :: stk =>
        if top = ['.', '.'] then cleanComps rooted (c :: top :: stk) rest
        else cleanComps rooted stk rest
    else cleanComps rooted (c :: stack) rest

/-- Join components with `'/'`. -/
def intercalateSlash : List (List Char) → List Char
  | [] => []
  | [c] => c
  | c :: rest => c ++ '/' :: intercalateSlash rest

/-- Go `path.Clean`. -/
def pathClean (p : String) : String :=
  if p = "" then "."
  else
    let l := p.data
    let rooted : Bool := match l with | '/' :: _ => true | _ => false
    let comps := cleanComps rooted [] (splitOnSlash l)
    let out := intercalateSlash comps
    if rooted then String.mk ('/' :: out)
    else if out = [] then "." else String.mk out

/-- Go `path.Join` of two elements: skip empty elements, join with `'/'`,
then clean; all-empty input gives `""`. -/
def pathJoin (a b : String) : String :=
  if a = "" then (if b = "" then "" else pathClean b)
  else if b = "" then pathClean a
  else pathClean (a ++ "/" ++ b)

/-- The part of a character list up to and including its last `'/'`
(empty if there is no slash). -/
def takeToLastSlash : List Char → List Char
  | [] => []
  | c :: rest =>
    let r := takeToLastSlash rest
    if r = [] then (if c = '/' then ['/'] else []) else c :: r

/-- Go `path.Dir` (identical to `filepath.Dir` on slash-separated systems):
everything up to the final slash, cleaned; `"."` if there is no slash. -/
def pathDir (p : String) : String :=
  let pre := takeToLastSlash p.data
  if pre = [] then "." else pathClean (String.mk pre)

/-- List-level string-prefix test. -/
def startsWithL : List Char → List Char → Bool
  | [], _ => true
  | _ :: _, [] => false
  | a :: as, b :: bs => a = b && startsWithL as bs

/-- Go `strings.HasPrefix s pre`. -/
def strStartsWith (s pre : String) : Bool :=
  startsWithL pre.data s.data

/-- Go `strings.TrimPrefix s pre`. -/
def trimPre (s pre : String) : String :=
  if strStartsWith s pre then String.mk (s.data.drop pre.data.length) else s

/-- Byte-wise character order (ASCII order on the paths we use). -/
def charLt (a b : Char) : Bool := Nat.blt a.toNat b.toNat

/-- Lexicographic order on character lists. -/
def strLtL : List Char → List Char → Bool
  | [], [] => false
  | [], _ :: _ => true
  | _ :: _, [] => false
  | a :: as, b :: bs => if a = b then strLtL as bs else charLt a b

/-- Lexicographic (byte-wise) string order, the order `readDirNames` sorts
directory entries in. -/
def strLt (a b : String) : Bool := strLtL a.data b.data

/-- The path components of a cleaned path: split on slashes, dropping empty
components. -/
def pathComponents (p : String) : List String :=
  ((splitOnSlash p.data).filter (fun c => c ≠ [])).map (fun l => String.mk l)

/-- Go error values produced by the operations under verification.
`errorList` is `errorutil.ErrorList`, the aggregate error of batch
operations. -/
inductive GoErr where
  | notExist (p : String)
  | ioErr (p : String)
  | eof
  | fileNotExist (p : String)
  | isDir (p : String)
  | notDir (p : String)
  | badPattern
  | errorList (es : List GoErr)

/-- `os.IsNotExist` on a modelled error. -/
def GoErr.isNotExist : GoErr → Bool
  | .notExist _ => true
  | _ => false

/-- A filesystem tree in first-child / next-sibling form.  `consDir name child
rest` is a directory entry called `name` (with contents `child`) followed by
its siblings `rest`; a directory node is either `nilDir` or a `consDir`
chain, kept sorted by `strLt` on names.  `broken` is an entry whose stat
fails with a non-"not exist" error. -/
inductive FsNode where
  | file (content : List Nat) (mtime : Nat)
  | broken
  | nilDir
  | consDir (name : String) (child : FsNode) (rest : FsNode)

/-- Whether a node is a directory. -/
def FsNode.isDirN : FsNode → Bool
  | .file _ _ => false
  | .broken => false
  | _ => true

/-- Look a name up in a sibling chain. -/
def lookupChild : FsNode → String → Option FsNode
  | .consDir name ch rest, c => if c = name then some ch else lookupChild rest c
  | _, _ => none

/-- Insert or replace a named entry in a sibling chain, keeping it sorted. -/
def setChild : FsNode → String → FsNode → FsNode
  | .consDir name ch rest, c, v =>
    if c = name then .consDir c v rest
    else if strLt c name then .consDir c v (.consDir name ch rest)
    else .consDir name ch (setChild rest c v)
  | _, c, v => .consDir c v .nilDir

/-- Delete a named entry from a sibling chain. -/
def removeChild : FsNode → String → FsNode
  | .consDir name ch rest, c =>
    if c = name then removeChild rest c else .consDir name ch (removeChild rest c)
  | n, _ => n

/-- Walk down a component list. -/
def resolveNode : FsNode → List String → Option FsNode
  | n, [] => some n
  | n, c :: rest =>
    match lookupChild n c with
    | some ch => resolveNode ch rest
    | none => none

/-- Result of `os.Stat`. -/
inductive StatInfo where
  | fileStat (content : List Nat) (mtime : Nat)
  | dirStat

/-- `os.Stat` on an absolute path over the modelled tree. -/
def statFS (fs : FsNode) (p : String) : Except GoErr StatInfo :=
  if p = "" then .error (.notExist p)
  else
    match resolveNode fs (pathComponents p) with
    | some (.file c t) => .ok (.fileStat c t)
    | some .broken => .error (.ioErr p)
    | some _ => .ok .dirStat
    | none => .error (.notExist p)

/-- `os.MkdirAll`: create every missing directory along the components; an
existing non-directory on the way is an error. -/
def mkdirAllNode : FsNode → List String → Except GoErr FsNode
  | .file _ _, _ => .error (.notDir "")
  | .broken, _ => .error (.ioErr "")
  | n, [] => .ok n
  | n, c :: rest =>
    match lookupChild n c with
    | some ch =>
      match mkdirAllNode ch rest with
      | .ok ch2 => .ok (setChild n c ch2)
      | .error e => .error e
    | none =>
      match mkdirAllNode .nilDir rest with
      | .ok ch2 => .ok (setChild n c ch2)
      | .error e => .error e

/-- `ioutil.WriteFile`: full-file overwrite creating the file if needed; the
parent directory must already exist, and the target must not be a directory. -/
def writeFileNode : FsNode → List String → List Nat → Nat → Except GoErr FsNode
  | _, [], _, _ => .error (.ioErr "")
  | .file _ _, _ :: _, _, _ => .error (.notDir "")
  | .broken, _ :: _, _, _ => .error (.ioErr "")
  | n, [c], content, t =>
    match lookupChild n c with
    | some (.file _ _) => .ok (setChild n c (.file content t))
    | some .broken => .error (.ioErr c)
    | some _ => .error (.isDir c)
    | none => .ok (setChild n c (.file content t))
  | n, c :: rest, content, t =>
    match lookupChild n c with
    | some ch =>
      match writeFileNode ch rest content t with
      | .ok ch2 => .ok (setChild n c ch2)
      | .error e => .error e
    | none => .error (.notExist c)

/-- `os.RemoveAll` on a component path: deletes the named subtree, a no-op
when nothing is there. -/
def removeAllNode : FsNode → List String → FsNode
  | n, [] => n
  | .file c t, _ :: _ => .file c t
  | .broken, _ :: _ => .broken
  | n, [c] => removeChild n c
  | n, c :: rest =>
    match lookupChild n c with
    | some ch => setChild n c (removeAllNode ch rest)
    | none => n

/-- `ioutil.ReadFile` on an absolute path. -/
def readFileNode (fs : FsNode) (p : String) : Except GoErr (List Nat) :=
  match resolveNode fs (pathComponents p) with
  | some (.file c _) => .ok c
  | some .broken => .error (.ioErr p)
  | some _ => .error (.isDir p)
  | none => .error (.notExist p)

/-- The callback event a walked entry produces: its `os.FileInfo.IsDir()`
value, or `none` when `lstat` failed and the callback receives a nil
`FileInfo`. -/
def headEvent (q : String) : FsNode → String × Option Bool
  | .file _ _ => (q, some false)
  | .broken => (q, none)
  | _ => (q, some true)

/-- Events produced below a node during `filepath.Walk`: for each entry of a
sibling chain, its own event followed by the events of its subtree, in the
sorted sibling order.  Entry paths are built with `filepath.Join` just as the
walk does. -/
def walkSibs (p : String) : FsNode → List (String × Option Bool)
  | .consDir name ch rest =>
    (headEvent (pathJoin p name) ch :: walkSibs (pathJoin p name) ch) ++ walkSibs p rest
  | _ => []

/-- `filepath.Walk rootDir`: the sequence of `(path, FileInfo)` arguments the
walk function is invoked with.  A missing or stat-broken root produces a
single invocation with a nil `FileInfo`. -/
def walkFS (fs : FsNode) (rootDir : String) : List (String × Option Bool) :=
  match resolveNode fs (pathComponents rootDir) with
  | none => [(rootDir, none)]
  | some n => headEvent rootDir n :: walkSibs rootDir n

/-- The walk callback of `ListWithPrefix` folded over the walk events: keep
(root-trimmed) non-directory entries whose absolute path has `absPre` as a
literal string prefix.  The callback evaluates `f.IsDir()` after the prefix
test succeeds, so a nil `FileInfo` there is a nil-pointer dereference; that
run is a panic, modelled as `none`. -/
def runWalkCallback (absPre localPath : String) :
    List (String × Option Bool) → Option (List String)
  | [] => some []
  | (p, info) :: rest =>
    if strStartsWith p absPre then
      match info with
      | none => none
      | some true => runWalkCallback absPre localPath rest
      | some false =>
        match runWalkCallback absPre localPath rest with
        | none => none
        | some acc => some (trimPre p localPath :: acc)
    else runWalkCallback absPre localPath rest

/-- Split a glob pattern into its directory part (after `cleanGlobPath`) and
its final component. -/
def globSplit (pattern : String) : String × String :=
  let l := pattern.data
  let pre := takeToLastSlash l
  let base := String.mk (l.drop pre.length)
  let d := if pre = [] then "." else if pre = ['/'] then "/" else String.mk pre.dropLast
  (d, base)

/-- One (possibly escaped) character of a `path.Match` character class, as
`getEsc` consumes it: the class may not start a range at `'-'` or `']'`, a
backslash must escape something, and the class must not end right after the
consumed character (a closing `']'` still has to follow).  `none` is
`ErrBadPattern`. -/
def getEscOk : List Char → Option (List Char)
  | [] => none
  | c :: rest =>
    if c = '-' ∨ c = ']' then none
    else if c = '\\' then
      match rest with
      | [] => none
      | _ :: rest2 => if rest2 = [] then none else some rest2
    else if rest = [] then none else some rest

/-- Scan a `path.Match` character class after the opening `'['` (and optional
`'^'`): ranges `lo` or `lo-hi` until a closing `']'`, which only counts once
at least one range was read.  Returns the remainder after the class, `none`
on `ErrBadPattern`.  Fuel only bounds the recursion; each step consumes at
least one character, so the callers' fuel never runs out. -/
def classScan : Nat → List Char → Nat → Option (List Char)
  | 0, _, _ => none
  | fuel + 1, l, nrange =>
    match l with
    | ']' :: rest =>
      if 0 < nrange then some rest
      else none
    | _ =>
      match getEscOk l with
      | none => none
      | some rest =>
        match rest with
        | '-' :: rest2 =>
          match getEscOk rest2 with
          | none => none
          | some rest3 => classScan fuel rest3 (nrange + 1)
        | _ => classScan fuel rest (nrange + 1)

/-- Syntactic validity of a whole `path.Match` pattern, as `matchChunk` checks
it while scanning (Go validates the full pattern even after a match has
failed): stars and `'?'` pass, a backslash must escape a character, a
bracket opens a class parsed by `classScan`, everything else is literal. -/
def patScan : Nat → List Char → Bool
  | 0, _ => false
  | fuel + 1, l =>
    match l with
    | [] => true
    | c :: rest =>
      if c = '*' ∨ c = '?' then patScan fuel rest
      else if c = '\\' then
        match rest with
        | [] => false
        | _ :: rest2 => patScan fuel rest2
      else if c = '[' then
        let rest2 := match rest with | '^' :: r => r | _ => rest
        match classScan fuel rest2 0 with
        | none => false
        | some rest3 => patScan fuel rest3
      else patScan fuel rest

/-- Whether a pattern is well-formed for `path.Match` (`Glob` validates the
whole pattern up front and returns `ErrBadPattern` otherwise). -/
def patWellFormed (l : List Char) : Bool :=
  patScan (2 * l.length + 8) l

/-- A chunk with no pattern metacharacters at all. -/
def literalChunk : List Char → Bool
  | [] => true
  | c :: rest => !(c = '*' ∨ c = '?' ∨ c = '[' ∨ c = '\\') && literalChunk rest

/-- The matching half of `path.Match`, modelled for the patterns
`ListWithPrefix` builds from ordinary prefixes: a literal chunk optionally
followed by one trailing `*` (which matches any run of non-separator
characters).  Patterns outside that family match nothing here; their
syntactic errors are raised by `patWellFormed` before matching is ever
consulted. -/
def matchBase (pat name : String) : Bool :=
  match pat.data.getLast? with
  | some '*' => literalChunk pat.data.dropLast && startsWithL pat.data.dropLast name.data
  | _ => literalChunk pat.data && (pat.data == name.data)

/-- Match a glob base pattern against a sorted sibling chain, producing the
joined paths of the matching entries (`filepath.Glob` keeps directories). -/
def globChildren (d base : String) : FsNode → List String
  | .consDir name _ rest =>
    (if matchBase base name then [pathJoin d name] else []) ++ globChildren d base rest
  | _ => []

/-- `filepath.Glob`: the whole pattern is validated first and a malformed one
is `ErrBadPattern`; a valid pattern lists the pattern's directory, keeping
the entries matching the final component (I/O errors while reading the
directory are ignored and give an empty result). -/
def globFS (fs : FsNode) (pattern : String) : Except GoErr (List String) :=
  if patWellFormed pattern.data then
    let s := globSplit pattern
    .ok
      (match resolveNode fs (pathComponents s.1) with
       | some n => if n.isDirN then globChildren s.1 s.2 n else []
       | none => [])
  else .error .badPattern

/-- `LocalChunkManager.Exist`: stat the joined path; "not exist" is `false`
with no error, any other stat failure propagates. -/
def Exist (fs : FsNode) (root p : String) : Except GoErr Bool :=
  match statFS fs (pathJoin root p) with
  | .ok _ => .ok true
  | .error e => if e.isNotExist then .ok false else .error e

/-- `LocalChunkManager.Write`: join the path, take its parent directory, check
existence of the parent (note the source passes the absolute parent back
through `Exist`, which joins the root a second time), create the parent
directories when that check came back false, then overwrite the file.  The
returned node is the filesystem after the call, errors and all: a failing
`WriteFile` keeps the directories `MkdirAll` created. -/
def Write (fs : FsNode) (root p : String) (content : List Nat) (t : Nat) :
    FsNode × Option GoErr :=
  let absPath := pathJoin root p
  let dir := pathDir absPath
  match Exist fs root dir with
  | .error e => (fs, some e)
  | .ok true =>
    match writeFileNode fs (pathComponents absPath) content t with
    | .ok fs2 => (fs2, none)
    | .error e => (fs, some e)
  | .ok false =>
    match mkdirAllNode fs (pathComponents dir) with
    | .error e => (fs, some e)
    | .ok fs1 =>
      match writeFileNode fs1 (pathComponents absPath) content t with
      | .ok fs2 => (fs2, none)
      | .error e => (fs1, some e)

/-- `LocalChunkManager.Read`: explicit existence check (absence is the
specific "file not exist" error), then a full-file read. -/
def Read (fs : FsNode) (root p : String) : Except GoErr (List Nat) :=
  match Exist fs root p with
  | .error e => .error e
  | .ok false => .error (.fileNotExist p)
  | .ok true => readFileNode fs (pathJoin root p)

/-- `LocalChunkManager.Remove`: existence check, then `os.RemoveAll`; missing
paths are a silent no-op. -/
def Remove (fs : FsNode) (root p : String) : FsNode × Option GoErr :=
  match Exist fs root p with
  | .error e => (fs, some e)
  | .ok false => (fs, none)
  | .ok true => (removeAllNode fs (pathComponents (pathJoin root p)), none)

/-- `LocalChunkManager.ReadAt`: negative offset or length is an immediate
`io.EOF` before the file is opened; otherwise open `path.Clean` of the joined
path, allocate a buffer of exactly `length` bytes and fill it with
`File.ReadAt`, which errors whenever it cannot fill the whole buffer.  The
bytes available at the offset are `c.drop off.toNat`; a buffer no larger than
that — in particular the empty buffer of a zero-length read, at any offset —
is filled successfully, anything larger is an error. -/
def ReadAt (fs : FsNode) (root p : String) (off length : Int) :
    Except GoErr (List Nat) :=
  if off < 0 ∨ length < 0 then .error .eof
  else
    let absPath := pathJoin root p
    match resolveNode fs (pathComponents (pathClean absPath)) with
    | some (.file c _) =>
      if length.toNat ≤ (c.drop off.toNat).length then
        .ok ((c.drop off.toNat).take length.toNat)
      else .error .eof
    | some .broken => .error (.ioErr absPath)
    | some _ => .error (.isDir absPath)
    | none => .error (.notExist absPath)

/-- `LocalChunkManager.getModTime`: stat the joined path and return its
modification time (directories are given time 0 in the model). -/
def getModTime (fs : FsNode) (root fp : String) : Except GoErr Nat :=
  match statFS fs (pathJoin root fp) with
  | .ok (.fileStat _ t) => .ok t
  | .ok .dirStat => .ok 0
  | .error e => .error e

/-- The modification-time loop of `ListWithPrefix`: one `getModTime` per
listed path, aborting with the first failure. -/
def modTimeLoop (fs : FsNode) (root : String) : List String → Except GoErr (List Nat)
  | [] => .ok []
  | p :: rest =>
    match getModTime fs root p with
    | .error e => .error e
    | .ok t =>
      match modTimeLoop fs root rest with
      | .error e => .error e
      | .ok ts => .ok (t :: ts)

/-- Outcome of `ListWithPrefix`: either the Go nil-pointer panic in the walk
callback, or the `(paths, times, err)` triple. -/
inductive ListResult where
  | panicked
  | res (paths : List String) (times : List Nat) (e : Option GoErr)

/-- `LocalChunkManager.ListWithPrefix`.  Recursive mode walks the parent
directory of the joined prefix, keeping non-directory entries whose absolute
path has the joined prefix as a literal string prefix, trimmed of the raw
root; non-recursive mode globs `prefix + "*"`.  Either way every listed path
is then stat'ed again for its modification time, and the first failure
returns the listed paths with an empty time slice and that error. -/
def ListWithPrefix (fs : FsNode) (root pfx : String) (recursive : Bool) : ListResult :=
  if recursive then
    let absPre := pathJoin root pfx
    let dir := pathDir absPre
    match runWalkCallback absPre root (walkFS fs dir) with
    | none => .panicked
    | some filePaths =>
      match modTimeLoop fs root filePaths with
      | .error e => .res filePaths [] (some e)
      | .ok ts => .res filePaths ts none
  else
    match globFS fs (pathJoin root (pfx ++ "*")) with
    | .error e => .res [] [] (some e)
    | .ok absPaths =>
      let filePaths := absPaths.map (fun ap => trimPre ap root)
      match modTimeLoop fs root filePaths with
      | .error e => .res filePaths [] (some e)
      | .ok ts => .res filePaths ts none

/-- The loop of `MultiWrite`: one `Write` per entry, collecting errors and
carrying the (possibly partially mutated) filesystem through failures.  The
Go map is iterated in list order here. -/
def multiWriteLoop (root : String) (t : Nat) :
    FsNode → List (String × List Nat) → FsNode × List GoErr
  | fs, [] => (fs, [])
  | fs, (p, c) :: rest =>
    match Write fs root p c t with
    | (fs2, none) => multiWriteLoop root t fs2 rest
    | (fs2, some e) =>
      let r := multiWriteLoop root t fs2 rest
      (r.1, e :: r.2)

/-- `LocalChunkManager.MultiWrite`: run the loop; a nil aggregate when no
error was collected, otherwise the `ErrorList`. -/
def MultiWrite (fs : FsNode) (root : String) (contents : List (String × List Nat))
    (t : Nat) : FsNode × Option GoErr :=
  match multiWriteLoop root t fs contents with
  | (fs2, []) => (fs2, none)
  | (fs2, es) => (fs2, some (.errorList es))

/-- The loop of `MultiRead`: one slot per input path in order; a failed read
leaves a nil slot and records its error. -/
def multiReadLoop (fs : FsNode) (root : String) :
    List String → List (Option (List Nat)) × List GoErr
  | [] => ([], [])
  | p :: rest =>
    let r := multiReadLoop fs root rest
    match Read fs root p with
    | .ok c => (some c :: r.1, r.2)
    | .error e => (none :: r.1, e :: r.2)

/-- `LocalChunkManager.MultiRead`. -/
def MultiRead (fs : FsNode) (root : String) (ps : List String) :
    List (Option (List Nat)) × Option GoErr :=
  match multiReadLoop fs root ps with
  | (rs, []) => (rs, none)
  | (rs, es) => (rs, some (.errorList es))

/-- The loop of `MultiRemove`. -/
def multiRemoveLoop (root : String) : FsNode → List String → FsNode × List GoErr
  | fs, [] => (fs, [])
  | fs, p :: rest =>
    match Remove fs root p with
    | (fs2, none) => multiRemoveLoop root fs2 rest
    | (fs2, some e) =>
      let r := multiRemoveLoop root fs2 rest
      (r.1, e :: r.2)

/-- `LocalChunkManager.MultiRemove`. -/
def MultiRemove (fs : FsNode) (root : String) (ps : List String) :
    FsNode × Option GoErr :=
  match multiRemoveLoop root fs ps with
  | (fs2, []) => (fs2, none)
  | (fs2, es) => (fs2, some (.errorList es))

/-- Outcome of an operation that mutates the filesystem and may inherit the
walk panic. -/
inductive OpResult where
  | panicked
  | res (fs : FsNode) (e : Option GoErr)

/-- `LocalChunkManager.RemoveWithPrefix`: recursive listing composed with
`MultiRemove` over the listed paths. -/
def RemoveWithPrefix (fs : FsNode) (root pfx : String) : OpResult :=
  match ListWithPrefix fs root pfx true with
  | .panicked => .panicked
  | .res _ _ (some e) => .res fs (some e)
  | .res paths _ none =>
    let r := MultiRemove fs root paths
    .res r.1 r.2

/-- The error component of an `Except`. -/
def exceptErr : Except GoErr α → Option GoErr
  | .ok _ => none
  | .error e => some e

/-- Whether an `Except` is a success. -/
def exceptOk : Except GoErr α → Bool
  | .ok _ => true
  | .error _ => false

/-- All writes of a batch succeed when performed one after the other:
the "no item failed" reading of a `MultiWrite` run. -/
def seqWriteOk (root : String) (t : Nat) : FsNode → List (String × List Nat) → Bool
  | _, [] => true
  | fs, (p, c) :: rest =>
    match Write fs root p c t with
    | (fs2, none) => seqWriteOk root t fs2 rest
    | (_, some _) => false

/-- All removes of a batch succeed when performed one after the other. -/
def seqRemoveOk (root : String) : FsNode → List String → Bool
  | _, [] => true
  | fs, p :: rest =>
    match Remove fs root p with
    | (fs2, none) => seqRemoveOk root fs2 rest
    | (_, some _) => false

theorem lookup_setChild (n : FsNode) (c : String) (v : FsNode) :
    lookupChild (setChild n c v) c = some v := by
  induction n with
  | consDir name ch rest ihc ihr =>
    by_cases h : c = name
    · simp [setChild, h, lookupChild]
    · by_cases h2 : strLt c name = true
      · simp [setChild, h, h2, lookupChild]
      · simp [setChild, h, h2, lookupChild, ihr]
  | _ => simp [setChild, lookupChild]

theorem lookup_removeChild (n : FsNode) (c : String) :
    lookupChild (removeChild n c) c = none := by
  induction n with
  | consDir name ch rest ihc ihr =>
    by_cases h : c = name
    · subst h
      simp [removeChild, ihr]
    · simp [removeChild, h, lookupChild, ihr]
  | _ => simp [removeChild, lookupChild]

theorem writeFileNode_resolve (cs : List String) (n n2 : FsNode) (ct : List Nat) (t : Nat)
    (h : writeFileNode n cs ct t = .ok n2) :
    resolveNode n2 cs = some (.file ct t) := by
  induction cs generalizing n n2 with
  | nil => simp [writeFileNode] at h
  | cons c rest ih =>
    cases rest with
    | nil =>
      cases n with
      | file _ _ => simp [writeFileNode] at h
      | broken => simp [writeFileNode] at h
      | nilDir =>
        simp only [writeFileNode, lookupChild] at h
        cases h
        simp [resolveNode, lookup_setChild]
      | consDir name ch r =>
        simp only [writeFileNode] at h
        cases hl : lookupChild (.consDir name ch r) c with
        | none =>
          rw [hl] at h
          cases h
          simp [resolveNode, lookup_setChild]
        | some ch2 =>
          rw [hl] at h
          cases ch2 with
          | file _ _ =>
            cases h
            simp [resolveNode, lookup_setChild]
          | broken => simp at h
          | nilDir => simp at h
          | consDir _ _ _ => simp at h
    | cons c2 rest2 =>
      cases n with
      | file _ _ => simp [writeFileNode] at h
      | broken => simp [writeFileNode] at h
      | nilDir => simp [writeFileNode, lookupChild] at h
      | consDir name ch r =>
        simp only [writeFileNode] at h
        cases hl : lookupChild (.consDir name ch r) c with
        | none =>
          simp only [hl] at h
          exact Except.noConfusion h
        | some ch2 =>
          simp only [hl] at h
          cases hw : writeFileNode ch2 (c2 :: rest2) ct t with
          | error e =>
            simp only [hw] at h
            exact Except.noConfusion h
          | ok ch3 =>
            simp only [hw] at h
            cases h
            simp only [resolveNode, lookup_setChild]
            exact ih _ _ hw

theorem removeAllNode_resolve (cs : List String) (n : FsNode) (hne : cs ≠ []) :
    resolveNode (removeAllNode n cs) cs = none := by
  induction cs generalizing n with
  | nil => exact absurd rfl hne
  | cons c rest ih =>
    cases rest with
    | nil =>
      cases n with
      | file co t => simp [removeAllNode, resolveNode, lookupChild]
      | broken => simp [removeAllNode, resolveNode, lookupChild]
      | nilDir => simp [removeAllNode, removeChild, resolveNode, lookupChild]
      | consDir name ch r => simp [removeAllNode, resolveNode, lookup_removeChild]
    | cons c2 rest2 =>
      cases n with
      | file co t => simp [removeAllNode, resolveNode, lookupChild]
      | broken => simp [removeAllNode, resolveNode, lookupChild]
      | nilDir => simp [removeAllNode, resolveNode, lookupChild]
      | consDir name ch r =>
        simp only [removeAllNode]
        cases hl : lookupChild (.consDir name ch r) c with
        | none => simp [resolveNode, hl]
        | some ch2 =>
          simp only [resolveNode, lookup_setChild]
          exact ih _ (by simp)

theorem multiReadLoop_fst (fs : FsNode) (root : String) (ps : List String) :
    (multiReadLoop fs root ps).1 = ps.map (fun p => (Read fs root p).toOption) := by
  induction ps with
  | nil => rfl
  | cons p rest ih =>
    simp only [multiReadLoop, List.map]
    cases h : Read fs root p with
    | ok c => simp [Except.toOption, ih]
    | error e => simp [Except.toOption, ih]

theorem multiReadLoop_snd (fs : FsNode) (root : String) (ps : List String) :
    (multiReadLoop fs root ps).2 = ps.filterMap (fun p => exceptErr (Read fs root p)) := by
  induction ps with
  | nil => rfl
  | cons p rest ih =>
    simp only [multiReadLoop, List.filterMap]
    cases h : Read fs root p with
    | ok c => simp [exceptErr, ih]
    | error e => simp [exceptErr, ih]

theorem multiReadLoop_snd_length (fs : FsNode) (root : String) (ps : List String) :
    (multiReadLoop fs root ps).2.length
      = ps.countP (fun p => !exceptOk (Read fs root p)) := by
  induction ps with
  | nil => rfl
  | cons p rest ih =>
    simp only [multiReadLoop, List.countP_cons]
    cases h : Read fs root p with
    | ok c => simp [exceptOk, ih]
    | error e => simp [exceptOk, ih]

theorem modTimeLoop_ok_length (fs : FsNode) (root : String) (ps : List String)
    (ts : List Nat) (h : modTimeLoop fs root ps = .ok ts) : ts.length = ps.length := by
  induction ps generalizing ts with
  | nil =>
    simp only [modTimeLoop] at h
    cases h
    rfl
  | cons p rest ih =>
    simp only [modTimeLoop] at h
    cases hm : getModTime fs root p with
    | error e =>
      simp only [hm] at h
      exact Except.noConfusion h
    | ok t =>
      simp only [hm] at h
      cases hr : modTimeLoop fs root rest with
      | error e =>
        simp only [hr] at h
        exact Except.noConfusion h
      | ok ts2 =>
        simp only [hr] at h
        cases h
        simp [ih ts2 hr]

theorem modTimeLoop_ok_get (fs : FsNode) (root : String) (ps : List String)
    (ts : List Nat) (h : modTimeLoop fs root ps = .ok ts) :
    ∀ i : Nat, (ts[i]?).map Except.ok = (ps[i]?).map (fun p => getModTime fs root p) := by
  induction ps generalizing ts with
  | nil =>
    simp only [modTimeLoop] at h
    cases h
    intro i
    simp
  | cons p rest ih =>
    simp only [modTimeLoop] at h
    cases hm : getModTime fs root p with
    | error e =>
      simp only [hm] at h
      exact Except.noConfusion h
    | ok t =>
      simp only [hm] at h
      cases hr : modTimeLoop fs root rest with
      | error e =>
        simp only [hr] at h
        exact Except.noConfusion h
      | ok ts2 =>
        simp only [hr] at h
        cases h
        intro i
        cases i with
        | zero => simp [hm]
        | succ j => simpa using ih ts2 hr j

theorem modTimeLoop_error (fs : FsNode) (root : String) (ps : List String)
    (e : GoErr) (h : modTimeLoop fs root ps = .error e) :
    ∃ p ∈ ps, getModTime fs root p = .error e := by
  induction ps with
  | nil =>
    simp only [modTimeLoop] at h
    exact Except.noConfusion h
  | cons p rest ih =>
    simp only [modTimeLoop] at h
    cases hm : getModTime fs root p with
    | error e2 =>
      simp only [hm] at h
      cases h
      exact ⟨p, by simp, hm⟩
    | ok t =>
      simp only [hm] at h
      cases hr : modTimeLoop fs root rest with
      | error e2 =>
        simp only [hr] at h
        cases h
        obtain ⟨q, hq, hge⟩ := ih hr
        exact ⟨q, by simp [hq], hge⟩
      | ok ts2 =>
        simp only [hr] at h
        exact Except.noConfusion h

theorem multiWriteLoop_nil_iff (root : String) (t : Nat) (fs : FsNode)
    (l : List (String × List Nat)) :
    (multiWriteLoop root t fs l).2 = [] ↔ seqWriteOk root t fs l = true := by
  induction l generalizing fs with
  | nil => simp [multiWriteLoop, seqWriteOk]
  | cons pc rest ih =>
    obtain ⟨p, c⟩ := pc
    simp only [multiWriteLoop, seqWriteOk]
    cases hw : Write fs root p c t with
    | mk fs2 oe =>
      cases oe with
      | none => exact ih fs2
      | some e => simp

theorem multiRemoveLoop_nil_iff (root : String) (fs : FsNode) (l : List String) :
    (multiRemoveLoop root fs l).2 = [] ↔ seqRemoveOk root fs l = true := by
  induction l generalizing fs with
  | nil => simp [multiRemoveLoop, seqRemoveOk]
  | cons p rest ih =>
    simp only [multiRemoveLoop, seqRemoveOk]
    cases hw : Remove fs root p with
    | mk fs2 oe =>
      cases oe with
      | none => exact ih fs2
      | some e => simp

theorem writeFileNode_nil (n : FsNode) (ct : List Nat) (t : Nat) :
    writeFileNode n [] ct t = .error (.ioErr "") := by
  cases n <;> rfl

theorem pathComponents_empty : pathComponents "" = [] := rfl

/-- Successful writes are visible: if the written file resolves, `Read` of the
same virtual path returns its content. -/
theorem read_of_resolve (fs2 : FsNode) (root p : String) (data : List Nat) (t : Nat)
    (habs : pathJoin root p ≠ "")
    (hres : resolveNode fs2 (pathComponents (pathJoin root p)) = some (.file data t)) :
    Read fs2 root p = .ok data := by
  simp only [Read, Exist, statFS, if_neg habs, hres, readFileNode]

/-- C1 (helper): a successful `writeFileNode` at the joined path makes `Read`
return the written data. -/
theorem read_after_writeFileNode (n fs2 : FsNode) (root p : String) (data : List Nat)
    (t : Nat) (hw : writeFileNode n (pathComponents (pathJoin root p)) data t = .ok fs2) :
    Read fs2 root p = .ok data := by
  by_cases habs : pathJoin root p = ""
  · rw [habs, pathComponents_empty, writeFileNode_nil] at hw
    exact Except.noConfusion hw
  · exact read_of_resolve fs2 root p data t habs
      (writeFileNode_resolve _ _ _ _ _ hw)

/-- C1: if `Write(p, data)` succeeds then a subsequent `Read(p)` succeeds and
returns exactly `data`; `Write` ensures the parent directory of the resolved
path exists (recursively creating it when the existence probe is negative)
and then performs a full-file overwrite, all of which is part of the
definition of `Write` unfolded by this proof. -/
theorem write_read_roundtrip (fs fs2 : FsNode) (root p : String) (data : List Nat)
    (t : Nat) (h : Write fs root p data t = (fs2, none)) :
    Read fs2 root p = .ok data := by
  simp only [Write] at h
  cases he : Exist fs root (pathDir (pathJoin root p)) with
  | error e =>
    simp only [he] at h
    simp at h
  | ok b =>
    cases b with
    | true =>
      simp only [he] at h
      cases hw : writeFileNode fs (pathComponents (pathJoin root p)) data t with
      | error e =>
        simp only [hw] at h
        simp at h
      | ok f2 =>
        simp only [hw] at h
        injection h with h1 h2
        subst h1
        exact read_after_writeFileNode fs f2 root p data t hw
    | false =>
      simp only [he] at h
      cases hm : mkdirAllNode fs (pathComponents (pathDir (pathJoin root p))) with
      | error e =>
        simp only [hm] at h
        simp at h
      | ok fs1 =>
        simp only [hm] at h
        cases hw : writeFileNode fs1 (pathComponents (pathJoin root p)) data t with
        | error e =>
          simp only [hw] at h
          simp at h
        | ok f2 =>
          simp only [hw] at h
          injection h with h1 h2
          subst h1
          exact read_after_writeFileNode fs1 f2 root p data t hw

theorem removeAllNode_nil (n : FsNode) : removeAllNode n [] = n := by
  cases n <;> rfl

/-- A successful `Write` ends in a successful `ioutil.WriteFile` on the joined
path (over the filesystem as left by the directory-creation step). -/
theorem write_ok_writeFileNode (fs fs2 : FsNode) (root p : String) (data : List Nat)
    (t : Nat) (h : Write fs root p data t = (fs2, none)) :
    ∃ n, writeFileNode n (pathComponents (pathJoin root p)) data t = .ok fs2 := by
  simp only [Write] at h
  cases he : Exist fs root (pathDir (pathJoin root p)) with
  | error e =>
    simp only [he] at h
    simp at h
  | ok b =>
    cases b with
    | true =>
      simp only [he] at h
      cases hw : writeFileNode fs (pathComponents (pathJoin root p)) data t with
      | error e =>
        simp only [hw] at h
        simp at h
      | ok f2 =>
        simp only [hw] at h
        injection h with h1 h2
        subst h1
        exact ⟨fs, hw⟩
    | false =>
      simp only [he] at h
      cases hm : mkdirAllNode fs (pathComponents (pathDir (pathJoin root p))) with
      | error e =>
        simp only [hm] at h
        simp at h
      | ok fs1 =>
        simp only [hm] at h
        cases hw : writeFileNode fs1 (pathComponents (pathJoin root p)) data t with
        | error e =>
          simp only [hw] at h
          simp at h
        | ok f2 =>
          simp only [hw] at h
          injection h with h1 h2
          subst h1
          exact ⟨fs1, hw⟩

theorem exist_of_resolve_file (fs2 : FsNode) (root p : String) (data : List Nat) (t : Nat)
    (habs : pathJoin root p ≠ "")
    (hres : resolveNode fs2 (pathComponents (pathJoin root p)) = some (.file data t)) :
    Exist fs2 root p = .ok true := by
  simp only [Exist, statFS, if_neg habs, hres]

/-- C6: `Exist(p)` is `false` with a nil error when the stat reports "not
exist", `true` with a nil error when the stat succeeds, propagates any other
stat failure, and is `true` with a nil error immediately after a successful
`Write(p, data)`. -/
theorem exist_stat_semantics (fs fs2 : FsNode) (root p : String) (data : List Nat)
    (t : Nat) :
    (statFS fs (pathJoin root p) = .error (.notExist (pathJoin root p)) →
      Exist fs root p = .ok false) ∧
    (∀ info, statFS fs (pathJoin root p) = .ok info → Exist fs root p = .ok true) ∧
    (∀ e, statFS fs (pathJoin root p) = .error e → e.isNotExist = false →
      Exist fs root p = .error e) ∧
    (Write fs root p data t = (fs2, none) → Exist fs2 root p = .ok true) := by
  refine ⟨fun h => ?_, fun info h => ?_, fun e h hne => ?_, fun h => ?_⟩
  · simp [Exist, h, GoErr.isNotExist]
  · simp [Exist, h]
  · simp [Exist, h, hne]
  · obtain ⟨n, hw⟩ := write_ok_writeFileNode fs fs2 root p data t h
    by_cases habs : pathJoin root p = ""
    · rw [habs, pathComponents_empty, writeFileNode_nil] at hw
      exact Except.noConfusion hw
    · exact exist_of_resolve_file fs2 root p data t habs
        (writeFileNode_resolve _ _ _ _ _ hw)

/-- C7: `Remove` of a path whose stat reports "not exist" is a no-op with a
nil error, and `Remove` is idempotent: a second `Remove` of the same path
returns the state and error of the first. -/
theorem remove_noop_idempotent (fs : FsNode) (root p : String) :
    (statFS fs (pathJoin root p) = .error (.notExist (pathJoin root p)) →
      Remove fs root p = (fs, none)) ∧
    Remove (Remove fs root p).1 root p = Remove fs root p := by
  constructor
  · intro h
    simp [Remove, Exist, h, GoErr.isNotExist]
  · cases he : Exist fs root p with
    | error e => simp [Remove, he]
    | ok b =>
      cases b with
      | false => simp [Remove, he]
      | true =>
        cases hcs : pathComponents (pathJoin root p) with
        | nil =>
          simp [Remove, he, hcs, removeAllNode_nil]
        | cons c rest =>
          have habs : pathJoin root p ≠ "" := by
            intro hab
            rw [hab, pathComponents_empty] at hcs
            exact List.noConfusion hcs
          have hre : resolveNode (removeAllNode fs (pathComponents (pathJoin root p)))
              (pathComponents (pathJoin root p)) = none := by
            rw [hcs]
            exact removeAllNode_resolve _ _ (by simp)
          simp only [Remove, he]
          simp only [Exist, statFS, if_neg habs, hre, GoErr.isNotExist]
          simp

theorem exceptErr_eq_none (x : Except GoErr α) : exceptErr x = none ↔ exceptOk x = true := by
  cases x <;> simp [exceptErr, exceptOk]

/-- C2: `MultiRead` over `n` paths returns one slot per input path in input
order — a failed path's slot is nil, a successful one carries exactly the
result of a direct single `Read` — and the aggregate error is nil iff no path
failed, and otherwise is an `ErrorList` holding exactly one error per failed
path. -/
theorem multiRead_slots_and_errors (fs : FsNode) (root : String) (ps : List String) :
    (MultiRead fs root ps).1.length = ps.length ∧
    (∀ i : Nat, ((MultiRead fs root ps).1)[i]? =
      (ps[i]?).map (fun p => (Read fs root p).toOption)) ∧
    ((MultiRead fs root ps).2 = none ↔
      ps.countP (fun p => !exceptOk (Read fs root p)) = 0) ∧
    (∀ es, (MultiRead fs root ps).2 = some (.errorList es) →
      es.length = ps.countP (fun p => !exceptOk (Read fs root p))) ∧
    (∀ e, (MultiRead fs root ps).2 = some e → ∃ es, e = .errorList es ∧ es ≠ []) := by
  cases hml : multiReadLoop fs root ps with
  | mk rs es =>
    have hfst : rs = ps.map (fun p => (Read fs root p).toOption) := by
      have h := multiReadLoop_fst fs root ps
      rw [hml] at h
      exact h
    have hlen : es.length = ps.countP (fun p => !exceptOk (Read fs root p)) := by
      have h := multiReadLoop_snd_length fs root ps
      rw [hml] at h
      exact h
    cases es with
    | nil =>
      have hmr : MultiRead fs root ps = (rs, none) := by
        simp [MultiRead, hml]
      refine ⟨?_, ?_, ?_, ?_, ?_⟩
      · simp [hmr, hfst]
      · intro i
        simp [hmr, hfst, List.getElem?_map]
      · simp [hmr, ← hlen]
      · intro es2 h
        rw [hmr] at h
        exact Option.noConfusion h
      · intro e h
        rw [hmr] at h
        exact Option.noConfusion h
    | cons e0 etl =>
      have hmr : MultiRead fs root ps = (rs, some (.errorList (e0 :: etl))) := by
        simp [MultiRead, hml]
      refine ⟨?_, ?_, ?_, ?_, ?_⟩
      · simp [hmr, hfst]
      · intro i
        simp [hmr, hfst, List.getElem?_map]
      · simp [hmr, ← hlen]
      · intro es2 h
        rw [hmr] at h
        injection h with h1
        injection h1 with h2
        rw [← h2]
        exact hlen
      · intro e h
        rw [hmr] at h
        injection h with h1
        exact ⟨e0 :: etl, h1.symm, by simp⟩

/-- C5: each batch operation runs the corresponding single-object operation
over its whole input, collecting the per-item errors, and its aggregate error
is nil iff no item failed (otherwise it is a non-empty `ErrorList`). -/
theorem batch_aggregate_iff (fs : FsNode) (root : String)
    (contents : List (String × List Nat)) (rps dps : List String) (t : Nat) :
    ((MultiWrite fs root contents t).2 = none ↔ seqWriteOk root t fs contents = true) ∧
    (∀ e, (MultiWrite fs root contents t).2 = some e →
      ∃ es, e = .errorList es ∧ es ≠ []) ∧
    ((MultiRead fs root rps).2 = none ↔ ∀ p ∈ rps, exceptOk (Read fs root p) = true) ∧
    (∀ e, (MultiRead fs root rps).2 = some e → ∃ es, e = .errorList es ∧ es ≠ []) ∧
    ((MultiRemove fs root dps).2 = none ↔ seqRemoveOk root fs dps = true) ∧
    (∀ e, (MultiRemove fs root dps).2 = some e → ∃ es, e = .errorList es ∧ es ≠ []) := by
  refine ⟨?_, ?_, ?_, ?_, ?_, ?_⟩
  · rw [← multiWriteLoop_nil_iff root t fs contents]
    cases hml : multiWriteLoop root t fs contents with
    | mk fs2 es => cases es <;> simp [MultiWrite, hml]
  · intro e h
    cases hml : multiWriteLoop root t fs contents with
    | mk fs2 es =>
      cases es with
      | nil =>
        rw [show (MultiWrite fs root contents t).2 = none by simp [MultiWrite, hml]] at h
        exact Option.noConfusion h
      | cons e0 etl =>
        rw [show (MultiWrite fs root contents t).2 = some (.errorList (e0 :: etl)) by
          simp [MultiWrite, hml]] at h
        injection h with h1
        exact ⟨e0 :: etl, h1.symm, by simp⟩
  · have hsnd := multiReadLoop_snd fs root rps
    cases hml : multiReadLoop fs root rps with
    | mk rs es =>
      rw [hml] at hsnd
      cases es with
      | nil =>
        have hnil : rps.filterMap (fun p => exceptErr (Read fs root p)) = [] := hsnd.symm
        have h2 := List.filterMap_eq_nil_iff.mp hnil
        have hmr : (MultiRead fs root rps).2 = none := by simp [MultiRead, hml]
        rw [hmr]
        exact ⟨fun _ p hp => (exceptErr_eq_none _).mp (h2 p hp), fun _ => rfl⟩
      | cons e0 etl =>
        simp only [MultiRead, hml]
        constructor
        · intro h
          exact Option.noConfusion h
        · intro hall
          have : rps.filterMap (fun p => exceptErr (Read fs root p)) = [] := by
            rw [List.filterMap_eq_nil_iff]
            intro p hp
            exact (exceptErr_eq_none _).mpr (hall p hp)
          rw [this] at hsnd
          exact absurd hsnd (by simp)
  · intro e h
    cases hml : multiReadLoop fs root rps with
    | mk rs es =>
      cases es with
      | nil =>
        rw [show (MultiRead fs root rps).2 = none by simp [MultiRead, hml]] at h
        exact Option.noConfusion h
      | cons e0 etl =>
        rw [show (MultiRead fs root rps).2 = some (.errorList (e0 :: etl)) by
          simp [MultiRead, hml]] at h
        injection h with h1
        exact ⟨e0 :: etl, h1.symm, by simp⟩
  · rw [← multiRemoveLoop_nil_iff root fs dps]
    cases hml : multiRemoveLoop root fs dps with
    | mk fs2 es => cases es <;> simp [MultiRemove, hml]
  · intro e h
    cases hml : multiRemoveLoop root fs dps with
    | mk fs2 es =>
      cases es with
      | nil =>
        rw [show (MultiRemove fs root dps).2 = none by simp [MultiRemove, hml]] at h
        exact Option.noConfusion h
      | cons e0 etl =>
        rw [show (MultiRemove fs root dps).2 = some (.errorList (e0 :: etl)) by
          simp [MultiRemove, hml]] at h
        injection h with h1
        exact ⟨e0 :: etl, h1.symm, by simp⟩

/-- C4 (amended): `ReadAt` fails with `io.EOF` as soon as the offset or
length is negative, for every path and before the file is consulted;
otherwise, on a file of content `C`, it returns a buffer of exactly `length`
bytes (the positioned slice) when the window fits, it fails — never returning
a short buffer — whenever the length is positive and `offset + length`
exceeds the file size, and a zero-length read succeeds with an empty buffer
at any offset, even beyond the file size. -/
theorem readAt_window (fs : FsNode) (root p : String) (off len : Int) :
    (off < 0 ∨ len < 0 → ReadAt fs root p off len = .error .eof) ∧
    (∀ C : List Nat, ∀ t : Nat,
      resolveNode fs (pathComponents (pathClean (pathJoin root p)))
        = some (.file C t) →
      0 ≤ off → 0 ≤ len →
      (off.toNat + len.toNat ≤ C.length →
        ReadAt fs root p off len = .ok ((C.drop off.toNat).take len.toNat) ∧
        ((C.drop off.toNat).take len.toNat).length = len.toNat) ∧
      (len = 0 → ReadAt fs root p off len = .ok []) ∧
      (0 < len → C.length < off.toNat + len.toNat →
        ReadAt fs root p off len = .error .eof)) := by
  constructor
  · intro h
    simp [ReadAt, h]
  · intro C t hf ho hl
    have hcond : ¬(off < 0 ∨ len < 0) := by omega
    refine ⟨?_, ?_, ?_⟩
    · intro hle
      have hfits : len.toNat ≤ (C.drop off.toNat).length := by
        simp only [List.length_drop]
        omega
      constructor
      · simp only [ReadAt, if_neg hcond, hf, if_pos hfits]
      · simp only [List.length_take, List.length_drop]
        omega
    · intro hz
      subst hz
      have hfits : (0 : Int).toNat ≤ (C.drop off.toNat).length := by
        simp
      simp only [ReadAt, if_neg hcond, hf, if_pos hfits]
      simp
    · intro hpos hgt
      have : ¬(len.toNat ≤ (C.drop off.toNat).length) := by
        simp only [List.length_drop]
        omega
      simp only [ReadAt, if_neg hcond, hf, if_neg this]

theorem ListWithPrefix_true_eq (fs : FsNode) (root pfx : String) :
    ListWithPrefix fs root pfx true =
      match runWalkCallback (pathJoin root pfx) root
          (walkFS fs (pathDir (pathJoin root pfx))) with
      | none => .panicked
      | some filePaths =>
        match modTimeLoop fs root filePaths with
        | .error e => .res filePaths [] (some e)
        | .ok ts => .res filePaths ts none := rfl

theorem ListWithPrefix_false_eq (fs : FsNode) (root pfx : String) :
    ListWithPrefix fs root pfx false =
      match globFS fs (pathJoin root (pfx ++ "*")) with
      | .error e => .res [] [] (some e)
      | .ok absPaths =>
        match modTimeLoop fs root (absPaths.map (fun ap => trimPre ap root)) with
        | .error e => .res (absPaths.map (fun ap => trimPre ap root)) [] (some e)
        | .ok ts => .res (absPaths.map (fun ap => trimPre ap root)) ts none := rfl

theorem globFS_error (fs : FsNode) (pattern : String) (e : GoErr)
    (h : globFS fs pattern = .error e) : e = .badPattern := by
  unfold globFS at h
  split at h
  · exact Except.noConfusion h
  · injection h with h1
    exact h1.symm

/-- C8: whichever listing mode ran, every listed path is stat'ed a second time
for its modification time.  An error therefore comes either from a failing
per-path mod-time stat — returned together with the already-listed paths and
an empty timestamp slice — or, in non-recursive mode only, from the glob
rejecting a malformed pattern before anything was listed; on success there is
exactly one timestamp per listed path, in the same order (slot `i` is the
stat of path `i`). -/
theorem listWithPrefix_modtimes (fs : FsNode) (root pfx : String) (recursive : Bool)
    (paths : List String) (times : List Nat) :
    (∀ e, ListWithPrefix fs root pfx recursive = .res paths times (some e) →
      times = [] ∧
        ((∃ p ∈ paths, getModTime fs root p = .error e) ∨
          (recursive = false ∧ paths = [] ∧ e = .badPattern))) ∧
    (ListWithPrefix fs root pfx recursive = .res paths times none →
      times.length = paths.length ∧
      ∀ i : Nat, (times[i]?).map Except.ok
        = (paths[i]?).map (fun q => getModTime fs root q)) := by
  constructor
  · intro e h
    cases recursive with
    | true =>
      rw [ListWithPrefix_true_eq] at h
      cases hrc : runWalkCallback (pathJoin root pfx) root
          (walkFS fs (pathDir (pathJoin root pfx))) with
      | none =>
        simp only [hrc] at h
        exact ListResult.noConfusion h
      | some fps =>
        simp only [hrc] at h
        cases hmt : modTimeLoop fs root fps with
        | error e2 =>
          simp only [hmt] at h
          injection h with h1 h2 h3
          injection h3 with h4
          refine ⟨h2.symm, Or.inl ?_⟩
          rw [← h1, ← h4]
          exact modTimeLoop_error fs root fps e2 hmt
        | ok ts =>
          simp only [hmt] at h
          injection h with h1 h2 h3
          exact Option.noConfusion h3
    | false =>
      rw [ListWithPrefix_false_eq] at h
      cases hg : globFS fs (pathJoin root (pfx ++ "*")) with
      | error e2 =>
        simp only [hg] at h
        injection h with h1 h2 h3
        injection h3 with h4
        refine ⟨h2.symm, Or.inr ⟨rfl, h1.symm, ?_⟩⟩
        rw [← h4]
        exact globFS_error fs (pathJoin root (pfx ++ "*")) e2 hg
      | ok absPaths =>
        simp only [hg] at h
        cases hmt : modTimeLoop fs root (absPaths.map (fun ap => trimPre ap root)) with
        | error e2 =>
          simp only [hmt] at h
          injection h with h1 h2 h3
          injection h3 with h4
          refine ⟨h2.symm, Or.inl ?_⟩
          rw [← h1, ← h4]
          exact modTimeLoop_error fs root _ e2 hmt
        | ok ts =>
          simp only [hmt] at h
          injection h with h1 h2 h3
          exact Option.noConfusion h3
  · intro h
    cases recursive with
    | true =>
      rw [ListWithPrefix_true_eq] at h
      cases hrc : runWalkCallback (pathJoin root pfx) root
          (walkFS fs (pathDir (pathJoin root pfx))) with
      | none =>
        simp only [hrc] at h
        exact ListResult.noConfusion h
      | some fps =>
        simp only [hrc] at h
        cases hmt : modTimeLoop fs root fps with
        | error e2 =>
          simp only [hmt] at h
          injection h with h1 h2 h3
          exact Option.noConfusion h3
        | ok ts =>
          simp only [hmt] at h
          injection h with h1 h2 h3
          rw [← h1, ← h2]
          exact ⟨modTimeLoop_ok_length fs root fps ts hmt,
            modTimeLoop_ok_get fs root fps ts hmt⟩
    | false =>
      rw [ListWithPrefix_false_eq] at h
      cases hg : globFS fs (pathJoin root (pfx ++ "*")) with
      | error e2 =>
        simp only [hg] at h
        injection h with h1 h2 h3
        exact Option.noConfusion h3
      | ok absPaths =>
        simp only [hg] at h
        cases hmt : modTimeLoop fs root (absPaths.map (fun ap => trimPre ap root)) with
        | error e2 =>
          simp only [hmt] at h
          injection h with h1 h2 h3
          exact Option.noConfusion h3
        | ok ts =>
          simp only [hmt] at h
          injection h with h1 h2 h3
          rw [← h1, ← h2]
          exact ⟨modTimeLoop_ok_length fs root _ ts hmt,
            modTimeLoop_ok_get fs root _ ts hmt⟩

/-- The tree of the spec's listing scenario, under root `/root/`:
`a/b/x.txt`, `a/b/c/y.txt` and the sibling `a/bc/z.txt` whose name merely
extends the prefix `a/b` character-wise. -/
def sampleTree : FsNode :=
  .consDir "root"
    (.consDir "a"
      (.consDir "b"
        (.consDir "c" (.consDir "y.txt" (.file [1, 2] 11) .nilDir)
          (.consDir "x.txt" (.file [3] 12) .nilDir))
        (.consDir "bc" (.consDir "z.txt" (.file [4] 13) .nilDir) .nilDir))
      .nilDir)
    .nilDir

/-- `sampleTree` after removing the three files listed under prefix `a/b`. -/
def sampleTreeRemoved : FsNode :=
  .consDir "root"
    (.consDir "a"
      (.consDir "b" (.consDir "c" .nilDir .nilDir)
        (.consDir "bc" .nilDir .nilDir))
      .nilDir)
    .nilDir

/-- A tree used with the process-relative root `./x` (a root the spec's data
model allows): the real file `x/a/f` plus a decoy `x/x/a/f` sitting exactly
where the root, joined with the untrimmed walk path, points. -/
def relRootTree : FsNode :=
  .consDir "x"
    (.consDir "a" (.consDir "f" (.file [1] 5) .nilDir)
      (.consDir "x" (.consDir "a" (.consDir "f" (.file [2] 6) .nilDir) .nilDir)
        .nilDir))
    .nilDir

/-- `relRootTree` after `RemoveWithPrefix`: the decoy `x/x/a/f` is gone, the
matching file `x/a/f` survives. -/
def relRootTreeAfter : FsNode :=
  .consDir "x"
    (.consDir "a" (.consDir "f" (.file [1] 5) .nilDir)
      (.consDir "x" (.consDir "a" .nilDir .nilDir) .nilDir))
    .nilDir

/-- A tree with an entry `/root/a/f` whose `lstat` fails, so the walk callback
is invoked with a nil `FileInfo` at a path carrying the listing prefix. -/
def brokenWalkTree : FsNode :=
  .consDir "root" (.consDir "a" (.consDir "f" .broken .nilDir) .nilDir) .nilDir

/-- A small tree for the overwrite round-trip: `a/b.txt` already holds other
content under root `/r`. -/
def overwriteTree : FsNode :=
  .consDir "r" (.consDir "a" (.consDir "b.txt" (.file [1] 0) .nilDir) .nilDir) .nilDir

/-- `overwriteTree` after `Write("a/b.txt", [7, 8])` at time 3. -/
def overwriteTreeAfter : FsNode :=
  .consDir "r" (.consDir "a" (.consDir "b.txt" (.file [7, 8] 3) .nilDir) .nilDir) .nilDir

/-- C3: over the spec's tree, recursive `ListWithPrefix("a/b")` walks the
parent directory of the resolved prefix, descends subdirectories, strips the
root from each result, and — by the literal string-prefix test — also returns
`a/bc/z.txt` alongside `a/b/x.txt` and `a/b/c/y.txt`. -/
theorem listWithPrefix_literal_recursive :
    ListWithPrefix sampleTree "/root/" "a/b" true
      = .res ["a/b/c/y.txt", "a/b/x.txt", "a/bc/z.txt"] [11, 12, 13] none := rfl

/-- C9 counterexample: with the configured root `./x` (a process-relative
root, cleaned to `x` by path joining, so the raw root is not a prefix of the
walked paths), `RemoveWithPrefix("a")` returns a nil error yet removes the
decoy `x/x/a/f` instead of the listed match, and the subsequent recursive
listing still finds `x/a/f`. -/
theorem removeWithPrefix_relative_root_cex :
    RemoveWithPrefix relRootTree "./x" "a" = .res relRootTreeAfter none ∧
    ListWithPrefix relRootTreeAfter "./x" "a" true
      = .res ["x/a/f"] [] (some (.notExist "x/x/a/f")) := ⟨rfl, rfl⟩

/-- C10: when a per-entry `lstat` failure hands the walk callback a nil
`FileInfo` at a path that carries the resolved prefix, `ListWithPrefix`
dereferences it (`f.IsDir()`) and panics instead of returning a triple. -/
theorem listWithPrefix_nil_fileinfo_panics :
    ListWithPrefix brokenWalkTree "/root/" "a" true = .panicked := rfl

/-- C1 witness: overwriting `a/b.txt` and reading it back. -/
theorem write_read_roundtrip_witness :
    Read overwriteTreeAfter "/r" "a/b.txt" = .ok [7, 8] :=
  write_read_roundtrip overwriteTree overwriteTreeAfter "/r" "a/b.txt" [7, 8] 3 (by rfl)

/-- C2 witness: one path of two fails; the aggregate holds exactly one
error. -/
theorem multiRead_slots_and_errors_witness :
    ([GoErr.fileNotExist "nope"] : List GoErr).length
      = (["a/b/x.txt", "nope"] : List String).countP
          (fun p => !exceptOk (Read sampleTree "/root/" p)) :=
  (multiRead_slots_and_errors sampleTree "/root/" ["a/b/x.txt", "nope"]).2.2.2.1
    [.fileNotExist "nope"] (by rfl)

/-- C4 counterexample: on the two-byte file `a/b/c/y.txt`, a zero-length read
at offset five — an offset past the end of the file, with
`offset + length` exceeding the file size — succeeds with an empty buffer
instead of failing. -/
theorem readAt_overrun_zero_cex :
    ReadAt sampleTree "/root/" "a/b/c/y.txt" 5 0 = .ok [] := rfl

/-- C4 witness: an in-bounds positioned read of one byte at offset one. -/
theorem readAt_window_witness :
    ReadAt sampleTree "/root/" "a/b/c/y.txt" 1 1 = .ok [2] :=
  (((readAt_window sampleTree "/root/" "a/b/c/y.txt" 1 1).2 [1, 2] 11 (by rfl)
    (by decide) (by decide)).1 (by decide)).1

/-- C5 witness: a batch write with no failing item has a nil aggregate. -/
theorem batch_aggregate_iff_witness :
    (MultiWrite sampleTree "/root/" [("k", [9])] 0).2 = none :=
  (batch_aggregate_iff sampleTree "/root/" [("k", [9])] ["a/b/x.txt"] ["zzz"] 0).1.mpr
    (by rfl)

/-- C6 witness: a missing path is `false` with a nil error. -/
theorem exist_stat_semantics_witness :
    Exist sampleTree "/root/" "missing" = .ok false :=
  (exist_stat_semantics sampleTree sampleTree "/root/" "missing" [] 0).1 (by rfl)

/-- C7 witness: removing a missing path is a silent no-op. -/
theorem remove_noop_idempotent_witness :
    Remove sampleTree "/root/" "missing" = (sampleTree, none) :=
  (remove_noop_idempotent sampleTree "/root/" "missing").1 (by rfl)

/-- C8 witness: on the spec's tree the timestamp slice has one entry per
listed path. -/
theorem listWithPrefix_modtimes_witness :
    ([11, 12, 13] : List Nat).length
      = (["a/b/c/y.txt", "a/b/x.txt", "a/bc/z.txt"] : List String).length :=
  ((listWithPrefix_modtimes sampleTree "/root/" "a/b" true
    ["a/b/c/y.txt", "a/b/x.txt", "a/bc/z.txt"] [11, 12, 13]).2 (by rfl)).1

/-! Auxiliary theory for the general `RemoveWithPrefix` theorem: facts about
the byte-wise string order, the split/render functions behind `pathClean`,
and the walk/removal correspondence. -/

theorem charLt_iff (a b : Char) : charLt a b = true ↔ a.toNat < b.toNat := by
  simp [charLt, Nat.blt_eq]

theorem char_toNat_inj {a b : Char} (h : a.toNat = b.toNat) : a = b :=
  Char.eq_of_val_eq (UInt32.ext h)

theorem strLtL_irrefl (l : List Char) : strLtL l l = false := by
  induction l with
  | nil => rfl
  | cons a rest ih => simp [strLtL, ih]

theorem strLtL_trans {a b c : List Char} (h1 : strLtL a b = true)
    (h2 : strLtL b c = true) : strLtL a c = true := by
  induction a generalizing b c with
  | nil =>
    cases b with
    | nil => exact absurd h1 (by simp [strLtL])
    | cons b0 bs =>
      cases c with
      | nil => exact absurd h2 (by simp [strLtL])
      | cons c0 cs => simp [strLtL]
  | cons a0 as ih =>
    cases b with
    | nil => exact absurd h1 (by simp [strLtL])
    | cons b0 bs =>
      cases c with
      | nil => exact absurd h2 (by simp [strLtL])
      | cons c0 cs =>
        simp only [strLtL] at h1 h2 ⊢
        by_cases hab : a0 = b0
        · subst hab
          rw [if_pos rfl] at h1
          by_cases hbc : a0 = c0
          · subst hbc
            rw [if_pos rfl] at h2 ⊢
            exact ih h1 h2
          · rw [if_neg hbc] at h2 ⊢
            exact h2
        · rw [if_neg hab] at h1
          by_cases hbc : b0 = c0
          · subst hbc
            rw [if_neg hab]
            exact h1
          · rw [if_neg hbc] at h2
            by_cases hac : a0 = c0
            · subst hac
              rw [charLt_iff] at h1 h2
              exact absurd (char_toNat_inj (by omega)) hab
            · rw [if_neg hac]
              rw [charLt_iff] at h1 h2 ⊢
              omega

theorem strLtL_total (a b : List Char) :
    a = b ∨ strLtL a b = true ∨ strLtL b a = true := by
  induction a generalizing b with
  | nil =>
    cases b with
    | nil => exact Or.inl rfl
    | cons b0 bs => exact Or.inr (Or.inl (by simp [strLtL]))
  | cons a0 as ih =>
    cases b with
    | nil => exact Or.inr (Or.inr (by simp [strLtL]))
    | cons b0 bs =>
      by_cases hab : a0 = b0
      · subst hab
        rcases ih bs with h | h | h
        · exact Or.inl (by rw [h])
        · exact Or.inr (Or.inl (by simp [strLtL, h]))
        · exact Or.inr (Or.inr (by simp [strLtL, h]))
      · have hne : a0.toNat ≠ b0.toNat := fun hc => hab (char_toNat_inj hc)
        rcases Nat.lt_or_ge a0.toNat b0.toNat with h | h
        · refine Or.inr (Or.inl ?_)
          simp only [strLtL, if_neg hab]
          exact (charLt_iff a0 b0).mpr h
        · refine Or.inr (Or.inr ?_)
          have hba : ¬b0 = a0 := fun hc => hab hc.symm
          simp only [strLtL, if_neg hba]
          refine (charLt_iff b0 a0).mpr ?_
          omega

theorem strLt_irrefl (s : String) : strLt s s = false := strLtL_irrefl s.data

theorem strLt_trans {a b c : String} (h1 : strLt a b = true) (h2 : strLt b c = true) :
    strLt a c = true := strLtL_trans h1 h2

theorem strLt_total (a b : String) : a = b ∨ strLt a b = true ∨ strLt b a = true := by
  rcases strLtL_total a.data b.data with h | h | h
  · refine Or.inl ?_
    cases a
    cases b
    exact congrArg String.mk h
  · exact Or.inr (Or.inl h)
  · exact Or.inr (Or.inr h)

theorem strLt_ne {a b : String} (h : strLt a b = true) : a ≠ b := by
  intro hc
  subst hc
  rw [strLt_irrefl] at h
  exact Bool.noConfusion h

theorem splitOnSlash_ne_nil (l : List Char) : splitOnSlash l ≠ [] := by
  cases l with
  | nil => simp [splitOnSlash]
  | cons c rest =>
    simp only [splitOnSlash]
    split
    · simp
    · split <;> simp

theorem splitOnSlash_cons_slash (l : List Char) :
    splitOnSlash ('/' :: l) = [] :: splitOnSlash l := by
  simp [splitOnSlash]

theorem splitOnSlash_cons_ne (c : Char) (l : List Char) (hc : ¬c = '/') :
    splitOnSlash (c :: l)
      = match splitOnSlash l with
        | h :: t => (c :: h) :: t
        | [] => [[c]] := by
  simp [splitOnSlash, hc]

theorem splitOnSlash_append (l1 l2 : List Char) :
    splitOnSlash (l1 ++ '/' :: l2) = splitOnSlash l1 ++ splitOnSlash l2 := by
  induction l1 with
  | nil => simp [splitOnSlash]
  | cons c rest ih =>
    by_cases hc : c = '/'
    · subst hc
      rw [List.cons_append, splitOnSlash_cons_slash, splitOnSlash_cons_slash, ih]
      rfl
    · rw [List.cons_append, splitOnSlash_cons_ne c _ hc, splitOnSlash_cons_ne c _ hc, ih]
      cases hs : splitOnSlash rest with
      | nil => exact absurd hs (splitOnSlash_ne_nil rest)
      | cons h0 hs2 => simp

theorem splitOnSlash_no_slash (l : List Char) (h : '/' ∉ l) :
    splitOnSlash l = [l] := by
  induction l with
  | nil => rfl
  | cons c rest ih =>
    simp only [List.mem_cons, not_or] at h
    have hc : ¬c = '/' := fun hc => h.1 hc.symm
    rw [splitOnSlash_cons_ne c rest hc, ih h.2]

theorem mem_splitOnSlash_no_slash (l : List Char) (c : List Char)
    (h : c ∈ splitOnSlash l) : '/' ∉ c := by
  induction l generalizing c with
  | nil =>
    simp only [splitOnSlash, List.mem_singleton] at h
    subst h
    simp
  | cons a rest ih =>
    simp only [splitOnSlash] at h
    by_cases ha : a = '/'
    · rw [if_pos ha] at h
      rcases List.mem_cons.mp h with h1 | h1
      · subst h1; simp
      · exact ih c h1
    · rw [if_neg ha] at h
      cases hs : splitOnSlash rest with
      | nil => exact absurd hs (splitOnSlash_ne_nil rest)
      | cons h0 hs2 =>
        rw [hs] at h
        rcases List.mem_cons.mp h with h1 | h1
        · subst h1
          have h0mem : h0 ∈ splitOnSlash rest := by rw [hs]; simp
          have := ih h0 h0mem
          simp only [List.mem_cons, not_or]
          exact ⟨fun hc => ha hc.symm, this⟩
        · exact ih c (by rw [hs]; simp [h1])

theorem splitOnSlash_intercalate (cs : List (List Char)) (hne : cs ≠ [])
    (hs : ∀ c ∈ cs, '/' ∉ c) : splitOnSlash (intercalateSlash cs) = cs := by
  induction cs with
  | nil => exact absurd rfl hne
  | cons c rest ih =>
    cases rest with
    | nil =>
      simp only [intercalateSlash]
      exact splitOnSlash_no_slash c (hs c (by simp))
    | cons c2 rest2 =>
      simp only [intercalateSlash]
      rw [splitOnSlash_append]
      rw [splitOnSlash_no_slash c (hs c (by simp))]
      rw [ih (by simp) (fun d hd => hs d (by simp [hd]))]
      rfl

/-- The stack after the component-processing phase of `pathClean`
(`cleanComps` reversed). -/
def cleanStack (rooted : Bool) : List (List Char) → List (List Char) → List (List Char)
  | stack, [] => stack
  | stack, c :: rest =>
    if c = [] ∨ c = ['.'] then cleanStack rooted stack rest
    else if c = ['.', '.'] then
      match stack with
      | [] => if rooted then cleanStack rooted [] rest else cleanStack rooted [['.', '.']] rest
      | top :: stk =>
        if top = ['.', '.'] then cleanStack rooted (c :: top :: stk) rest
        else cleanStack rooted stk rest
    else cleanStack rooted (c :: stack) rest

theorem cleanComps_eq_cleanStack (rooted : Bool) (st l : List (List Char)) :
    cleanComps rooted st l = (cleanStack rooted st l).reverse := by
  induction l generalizing st with
  | nil => rfl
  | cons c rest ih =>
    simp only [cleanComps, cleanStack]
    split
    · exact ih st
    · split
      · split
        · split
          · exact ih []
          · exact ih [['.', '.']]
        · split
          · exact ih _
          · exact ih _
      · exact ih _

theorem cleanStack_append (rooted : Bool) (st : List (List Char))
    (xs ys : List (List Char)) :
    cleanStack rooted st (xs ++ ys) = cleanStack rooted (cleanStack rooted st xs) ys := by
  induction xs generalizing st with
  | nil => rfl
  | cons c rest ih =>
    simp only [List.cons_append, cleanStack]
    split
    · exact ih st
    · split
      · split
        · split
          · exact ih []
          · exact ih [['.', '.']]
        · split
          · exact ih _
          · exact ih _
      · exact ih _

theorem cleanStack_push (rooted : Bool) (st : List (List Char)) (y : List Char)
    (h1 : y ≠ []) (h2 : y ≠ ['.']) (h3 : y ≠ ['.', '.']) :
    cleanStack rooted st [y] = y :: st := by
  simp [cleanStack, h1, h2, h3]

theorem cleanStack_elems (rooted : Bool) (l : List (List Char)) :
    ∀ st : List (List Char), (∀ c ∈ st, c ≠ [] ∧ c ≠ ['.']) →
      ∀ c ∈ cleanStack rooted st l, c ≠ [] ∧ c ≠ ['.'] := by
  induction l with
  | nil => intro st hst; exact hst
  | cons c rest ih =>
    intro st hst
    simp only [cleanStack]
    split
    · exact ih st hst
    · next hskip =>
      split
      · split
        · split
          · exact ih [] (by simp)
          · exact ih [['.', '.']] (by simp)
        · next top stk =>
          split
          · refine ih _ ?_
            intro d hd
            rcases List.mem_cons.mp hd with h1 | h1
            · subst h1
              push_neg at hskip
              exact hskip
            · exact hst _ h1
          · refine ih stk ?_
            intro d hd
            exact hst d (by simp [hd])
      · refine ih _ ?_
        intro d hd
        rcases List.mem_cons.mp hd with h1 | h1
        · subst h1
          push_neg at hskip
          exact hskip
        · exact hst _ h1

theorem cleanStack_no_slash (rooted : Bool) (l : List (List Char)) :
    ∀ st : List (List Char), (∀ c ∈ st, '/' ∉ c) → (∀ c ∈ l, '/' ∉ c) →
      ∀ c ∈ cleanStack rooted st l, '/' ∉ c := by
  induction l with
  | nil => intro st hst _; exact hst
  | cons c rest ih =>
    intro st hst hl
    have hlrest : ∀ d ∈ rest, '/' ∉ d := fun d hd => hl d (by simp [hd])
    simp only [cleanStack]
    split
    · exact ih st hst hlrest
    · split
      · next hdots =>
        split
        · split
          · exact ih [] (by simp) hlrest
          · exact ih [['.', '.']] (by simp) hlrest
        · next top stk =>
          split
          · refine ih _ ?_ hlrest
            intro d hd
            rcases List.mem_cons.mp hd with h1 | h1
            · subst h1
              simp [hdots]
            · exact hst _ h1
          · refine ih stk ?_ hlrest
            intro d hd
            exact hst d (by simp [hd])
      · refine ih _ ?_ hlrest
        intro d hd
        rcases List.mem_cons.mp hd with h1 | h1
        · subst h1
          exact hl _ (by simp)
        · exact hst _ h1

theorem cleanStack_rooted_no_dots (l : List (List Char)) :
    ∀ st : List (List Char), (∀ c ∈ st, c ≠ ['.', '.']) →
      ∀ c ∈ cleanStack true st l, c ≠ ['.', '.'] := by
  induction l with
  | nil => intro st hst; exact hst
  | cons c rest ih =>
    intro st hst
    simp only [cleanStack]
    split
    · exact ih st hst
    · split
      · split
        · simp only [if_true]
          exact ih [] (by simp)
        · next top stk =>
          have htop : top ≠ ['.', '.'] := hst top (by simp)
          rw [if_neg htop]
          refine ih stk ?_
          intro d hd
          exact hst d (by simp [hd])
      · next hdots =>
        refine ih _ ?_
        intro d hd
        rcases List.mem_cons.mp hd with h1 | h1
        · subst h1; exact hdots
        · exact hst d h1

/-- "Non-dots then dots": every `".."` in the stack sits below every other
component, the shape `cleanStack` keeps a non-rooted stack in. -/
def ndtd : List (List Char) → Bool
  | [] => true
  | c :: rest =>
    if c = ['.', '.'] then rest.all (fun d => d = ['.', '.']) else ndtd rest

theorem cleanStack_ndtd (l : List (List Char)) :
    ∀ st : List (List Char), ndtd st = true →
      ndtd (cleanStack false st l) = true := by
  induction l with
  | nil => intro st hst; exact hst
  | cons c rest ih =>
    intro st hst
    simp only [cleanStack]
    split
    · exact ih st hst
    · next hskip =>
      split
      · next hdots =>
        split
        · simp only [Bool.false_eq_true, if_neg (by simp : ¬False)]
          refine ih [['.', '.']] ?_
          simp [ndtd]
        · next top stk =>
          split
          · next htop =>
            refine ih _ ?_
            simp only [ndtd, if_pos htop] at hst
            simp only [ndtd, if_pos hdots, List.all_cons]
            rw [htop]
            simp [hst]
          · next htop =>
            refine ih stk ?_
            simp only [ndtd, if_neg htop] at hst
            exact hst
      · next hdots =>
        refine ih _ ?_
        simp only [ndtd, if_neg hdots]
        exact hst

theorem cleanStack_replay_simple (rooted : Bool) (l : List (List Char)) :
    ∀ st : List (List Char),
      (∀ c ∈ l, c ≠ [] ∧ c ≠ ['.'] ∧ c ≠ ['.', '.']) →
      cleanStack rooted st l = l.reverse ++ st := by
  induction l with
  | nil => intro st _; rfl
  | cons c rest ih =>
    intro st hl
    obtain ⟨h1, h2, h3⟩ := hl c (by simp)
    simp only [cleanStack, if_neg (by simp [h1, h2] : ¬(c = [] ∨ c = ['.'])), if_neg h3]
    rw [ih (c :: st) (fun d hd => hl d (by simp [hd]))]
    simp

theorem cleanStack_dots (k : Nat) :
    ∀ j : Nat, cleanStack false (List.replicate j ['.', '.'])
        (List.replicate k ['.', '.'])
      = List.replicate (k + j) ['.', '.'] := by
  induction k with
  | zero => intro j; simp [cleanStack, List.replicate]
  | succ k2 ih =>
    intro j
    rw [List.replicate_succ]
    simp only [cleanStack,
      if_neg (by simp : ¬((['.', '.'] : List Char) = [] ∨ (['.', '.'] : List Char) = ['.'])),
      if_pos rfl]
    cases j with
    | zero =>
      have h1 := ih 1
      simp only [List.replicate] at h1 ⊢
      simp only [h1]
      simp
    | succ j2 =>
      have h1 := ih (j2 + 2)
      have h2 : List.replicate (j2 + 2) (['.', '.'] : List Char)
          = ['.', '.'] :: ['.', '.'] :: List.replicate j2 ['.', '.'] := by
        rw [List.replicate_succ, List.replicate_succ]
      rw [h2] at h1
      simp only [List.replicate_succ, h1]
      simp only [if_true]
      congr 1
      omega

theorem all_dots_replicate (l : List (List Char))
    (h : l.all (fun d => d = ['.', '.']) = true) :
    l = List.replicate l.length ['.', '.'] := by
  induction l with
  | nil => rfl
  | cons c rest ih =>
    simp only [List.all_cons, Bool.and_eq_true, decide_eq_true_eq] at h
    rw [List.length_cons, List.replicate_succ, h.1, ih (by simpa using h.2)]
    simp

theorem ndtd_decomp (l : List (List Char)) (h : ndtd l = true) :
    ∃ xs k, l = xs ++ List.replicate k ['.', '.'] ∧ ['.', '.'] ∉ xs := by
  induction l with
  | nil => exact ⟨[], 0, rfl, by simp⟩
  | cons c rest ih =>
    by_cases hc : c = ['.', '.']
    · subst hc
      simp only [ndtd, if_pos rfl] at h
      refine ⟨[], rest.length + 1, ?_, by simp⟩
      rw [List.replicate_succ, ← all_dots_replicate rest h]
      simp
    · simp only [ndtd, if_neg hc] at h
      obtain ⟨xs, k, heq, hxs⟩ := ih h
      refine ⟨c :: xs, k, by rw [heq]; rfl, ?_⟩
      simp only [List.mem_cons, not_or]
      exact ⟨fun hcc => hc hcc.symm, hxs⟩

theorem intercalateSlash_head (c : List Char) (rest : List (List Char)) :
    ∃ t, intercalateSlash (c :: rest) = c ++ t := by
  cases rest with
  | nil => exact ⟨[], by simp [intercalateSlash]⟩
  | cons c2 rest2 => exact ⟨'/' :: intercalateSlash (c2 :: rest2), rfl⟩

/-- Whether a path string is rooted (starts with a slash). -/
def rootedOf (w : String) : Bool :=
  match w.data with
  | '/' :: _ => true
  | _ => false

theorem pathClean_def (w : String) (hw : ¬w = "") :
    pathClean w =
      (if rootedOf w then
        String.mk ('/' :: intercalateSlash
          ((cleanStack (rootedOf w) [] (splitOnSlash w.data)).reverse))
      else if intercalateSlash
          ((cleanStack (rootedOf w) [] (splitOnSlash w.data)).reverse) = [] then "."
      else String.mk (intercalateSlash
          ((cleanStack (rootedOf w) [] (splitOnSlash w.data)).reverse))) := by
  simp only [pathClean, if_neg hw, cleanComps_eq_cleanStack, rootedOf]

theorem cleanStack_skip_nil (rooted : Bool) (st : List (List Char))
    (l : List (List Char)) :
    cleanStack rooted st ([] :: l) = cleanStack rooted st l := by
  simp [cleanStack]

theorem cleanStack_fixpoint (rooted : Bool) (st : List (List Char))
    (hne : ∀ c ∈ st, c ≠ [] ∧ c ≠ ['.'])
    (hroot : rooted = true → ∀ c ∈ st, c ≠ ['.', '.'])
    (hnd : rooted = false → ndtd st = true) :
    cleanStack rooted [] st.reverse = st := by
  cases rooted with
  | true =>
    rw [cleanStack_replay_simple]
    · simp
    · intro c hc
      rw [List.mem_reverse] at hc
      exact ⟨(hne c hc).1, (hne c hc).2, hroot rfl c hc⟩
  | false =>
    obtain ⟨xs, k, heq, hxs⟩ := ndtd_decomp st (hnd rfl)
    subst heq
    rw [List.reverse_append, List.reverse_replicate, cleanStack_append]
    have h1 : cleanStack false [] (List.replicate k ['.', '.'])
        = List.replicate k ['.', '.'] := by
      have := cleanStack_dots k 0
      simpa using this
    rw [h1, cleanStack_replay_simple]
    · simp
    · intro c hc
      rw [List.mem_reverse] at hc
      refine ⟨(hne c (by simp [hc])).1, (hne c (by simp [hc])).2, ?_⟩
      intro hcon
      subst hcon
      exact hxs hc

theorem pathClean_ne_empty (w : String) : pathClean w ≠ "" := by
  by_cases hw : w = ""
  · subst hw
    decide
  · rw [pathClean_def w hw]
    split
    · intro hc
      have := congrArg String.data hc
      simp at this
    · split
      · decide
      · next hout =>
        intro hc
        have := congrArg String.data hc
        simp at this
        exact hout this

theorem components_render_rooted (cs : List (List Char))
    (h : ∀ c ∈ cs, c ≠ [] ∧ '/' ∉ c) :
    pathComponents (String.mk ('/' :: intercalateSlash cs)) = cs.map String.mk := by
  cases cs with
  | nil => decide
  | cons c0 rest =>
    simp only [pathComponents]
    rw [splitOnSlash_cons_slash]
    rw [splitOnSlash_intercalate (c0 :: rest) (by simp) (fun d hd => (h d hd).2)]
    rw [List.filter_cons_of_neg (by simp)]
    rw [List.filter_eq_self.mpr (fun d hd => by simpa using (h d hd).1)]

theorem components_render_plain (cs : List (List Char)) (hcs : cs ≠ [])
    (h : ∀ c ∈ cs, c ≠ [] ∧ '/' ∉ c) :
    pathComponents (String.mk (intercalateSlash cs)) = cs.map String.mk := by
  cases cs with
  | nil => exact absurd rfl hcs
  | cons c0 rest =>
    simp only [pathComponents]
    rw [splitOnSlash_intercalate (c0 :: rest) (by simp) (fun d hd => (h d hd).2)]
    rw [List.filter_eq_self.mpr (fun d hd => by simpa using (h d hd).1)]

theorem pathClean_idem (w : String) : pathClean (pathClean w) = pathClean w := by
  by_cases hw : w = ""
  · subst hw
    decide
  · have hne := cleanStack_elems (rootedOf w) (splitOnSlash w.data) [] (by simp)
    have hslash := cleanStack_no_slash (rootedOf w) (splitOnSlash w.data) [] (by simp)
      (fun c hc => mem_splitOnSlash_no_slash w.data c hc)
    cases hr : rootedOf w with
    | true =>
      have hnd := cleanStack_rooted_no_dots (splitOnSlash w.data) [] (by simp)
      rw [pathClean_def w hw, hr]
      simp only [if_true]
      rw [hr] at hne hslash
      by_cases hstnil : cleanStack true [] (splitOnSlash w.data) = []
      · rw [hstnil]
        decide
      · have h1 : (String.mk ('/' :: intercalateSlash
            (cleanStack true [] (splitOnSlash w.data)).reverse)) ≠ "" := by
          intro hc
          have := congrArg String.data hc
          simp at this
        rw [pathClean_def _ h1]
        have hroot1 : rootedOf (String.mk ('/' :: intercalateSlash
            (cleanStack true [] (splitOnSlash w.data)).reverse)) = true := rfl
        rw [hroot1]
        simp only [if_true]
        have hsplit : splitOnSlash (String.mk ('/' :: intercalateSlash
            (cleanStack true [] (splitOnSlash w.data)).reverse)).data
            = [] :: (cleanStack true [] (splitOnSlash w.data)).reverse := by
          show splitOnSlash ('/' :: intercalateSlash
            (cleanStack true [] (splitOnSlash w.data)).reverse) = _
          rw [splitOnSlash_cons_slash,
            splitOnSlash_intercalate _ (by simpa using hstnil)
              (fun d hd => hslash d (List.mem_reverse.mp hd))]
        rw [hsplit, cleanStack_skip_nil,
          cleanStack_fixpoint true _ hne (fun _ => hnd) (fun hc => Bool.noConfusion hc)]
    | false =>
      have hnd := cleanStack_ndtd (splitOnSlash w.data) [] rfl
      rw [pathClean_def w hw, hr]
      simp only [Bool.false_eq_true, if_false]
      rw [hr] at hne hslash
      by_cases hstnil : cleanStack false [] (splitOnSlash w.data) = []
      · rw [hstnil]
        simp only [List.reverse_nil, intercalateSlash, if_pos rfl]
        decide
      · obtain ⟨c0, r0, hst⟩ : ∃ c0 r0,
            (cleanStack false [] (splitOnSlash w.data)).reverse = c0 :: r0 := by
          cases hsr : (cleanStack false [] (splitOnSlash w.data)).reverse with
          | nil =>
            exact absurd (by simpa using congrArg List.reverse hsr) hstnil
          | cons a b => exact ⟨a, b, rfl⟩
        have hc0 : c0 ≠ [] ∧ c0 ≠ ['.'] :=
          hne c0 (List.mem_reverse.mp (by rw [hst]; simp))
        have hc0s : '/' ∉ c0 := hslash c0 (List.mem_reverse.mp (by rw [hst]; simp))
        obtain ⟨t0, ht0⟩ := intercalateSlash_head c0 r0
        have houtne : intercalateSlash
            (cleanStack false [] (splitOnSlash w.data)).reverse ≠ [] := by
          rw [hst, ht0]
          cases hc0c : c0 with
          | nil => exact absurd hc0c hc0.1
          | cons a b => simp
        rw [if_neg houtne]
        have h1 : String.mk (intercalateSlash
            (cleanStack false [] (splitOnSlash w.data)).reverse) ≠ "" := by
          intro hc
          exact houtne (by simpa using congrArg String.data hc)
        rw [pathClean_def _ h1]
        have hroot1 : rootedOf (String.mk (intercalateSlash
            (cleanStack false [] (splitOnSlash w.data)).reverse)) = false := by
          show (match (intercalateSlash
            (cleanStack false [] (splitOnSlash w.data)).reverse : List Char) with
            | '/' :: _ => true | _ => false) = false
          rw [hst, ht0]
          cases hc0c : c0 with
          | nil => exact absurd hc0c hc0.1
          | cons a b =>
            have ha : a ≠ '/' := by
              intro hcon
              subst hcon
              exact hc0s (by rw [hc0c]; simp)
            simp only [List.cons_append]
            cases a with
            | mk v p =>
              split
              · next heq2 =>
                injection heq2 with hq1 hq2
                exact absurd hq1.symm (fun hc => ha hc.symm)
              · rfl
        rw [hroot1]
        simp only [Bool.false_eq_true, if_false]
        have hsplit : splitOnSlash (String.mk (intercalateSlash
            (cleanStack false [] (splitOnSlash w.data)).reverse)).data
            = (cleanStack false [] (splitOnSlash w.data)).reverse := by
          show splitOnSlash (intercalateSlash
            (cleanStack false [] (splitOnSlash w.data)).reverse) = _
          exact splitOnSlash_intercalate _ (by simpa using hstnil)
            (fun d hd => hslash d (List.mem_reverse.mp hd))
        rw [hsplit,
          cleanStack_fixpoint false _ hne (fun hc => Bool.noConfusion hc) (fun _ => hnd)]
        rw [if_neg houtne]

theorem rootedOf_cons (c : Char) (l : List Char) :
    rootedOf (String.mk (c :: l)) = decide (c = '/') := by
  by_cases hc : c = '/'
  · subst hc
    simp [rootedOf]
  · rw [decide_eq_false hc]
    simp only [rootedOf]
    split
    · next heq =>
      injection heq with h1 h2
      exact absurd h1 hc
    · rfl

theorem rootedOf_data (a : String) : rootedOf a = rootedOf (String.mk a.data) := by
  cases a
  rfl

/-- The canonical-form invariant carried along walk bases: a nonempty path,
not the bare `"."`, fixed by `pathClean`. -/
def parsedClean (a : String) : Prop :=
  a ≠ "" ∧ a ≠ "." ∧ pathClean a = a

/-- A simple entry name: nonempty, not a dot component, slash-free. -/
def simpleName (s : String) : Prop :=
  s.data ≠ [] ∧ s.data ≠ ['.'] ∧ s.data ≠ ['.', '.'] ∧ '/' ∉ s.data

theorem pathJoin_cons_components (a s : String) (hpc : parsedClean a)
    (hs : simpleName s) :
    pathComponents (pathJoin a s) = pathComponents a ++ [s] ∧
      parsedClean (pathJoin a s) := by
  obtain ⟨ha1, hadot, hca⟩ := hpc
  obtain ⟨hs0, hs1, hs2, hs3⟩ := hs
  have hsne : s ≠ "" := fun hc => hs0 (by rw [hc])
  have hjoin : pathJoin a s = pathClean (a ++ "/" ++ s) := by
    simp [pathJoin, ha1, hsne]
  have hdataW : (a ++ "/" ++ s).data = a.data ++ '/' :: s.data := by
    show a.data ++ "/".data ++ s.data = _
    simp
  obtain ⟨a0, arest, hadata⟩ : ∃ c l, a.data = c :: l := by
    cases had : a.data with
    | nil =>
      exfalso
      apply ha1
      cases a
      simp only at had
      rw [had]
    | cons c l => exact ⟨c, l, rfl⟩
  have hWne : (a ++ "/" ++ s) ≠ "" := by
    intro hc
    have := congrArg String.data hc
    rw [hdataW, hadata] at this
    simp at this
  have hrootW : rootedOf (a ++ "/" ++ s) = rootedOf a := by
    rw [rootedOf_data (a ++ "/" ++ s), rootedOf_data a, hdataW, hadata]
    simp only [List.cons_append]
    rw [rootedOf_cons, rootedOf_cons]
  have hsplitW : splitOnSlash (a ++ "/" ++ s).data
      = splitOnSlash a.data ++ [s.data] := by
    rw [hdataW, splitOnSlash_append, splitOnSlash_no_slash s.data hs3]
  have hstW : ∀ r : Bool, cleanStack r [] (splitOnSlash (a ++ "/" ++ s).data)
      = s.data :: cleanStack r [] (splitOnSlash a.data) := by
    intro r
    rw [hsplitW, cleanStack_append, cleanStack_push r _ s.data hs0 hs1 hs2]
  have hneA := cleanStack_elems (rootedOf a) (splitOnSlash a.data) [] (by simp)
  have hslashA := cleanStack_no_slash (rootedOf a) (splitOnSlash a.data) [] (by simp)
    (fun c hc => mem_splitOnSlash_no_slash a.data c hc)
  have helemsW : ∀ c ∈ (s.data :: cleanStack (rootedOf a) [] (splitOnSlash a.data)),
      c ≠ [] ∧ '/' ∉ c := by
    intro c hc
    rcases List.mem_cons.mp hc with h1 | h1
    · subst h1
      exact ⟨hs0, hs3⟩
    · exact ⟨(hneA c h1).1, hslashA c h1⟩
  have hmk : String.mk s.data = s := by
    cases s
    rfl
  cases hra : rootedOf a with
  | true =>
    have haeq : a = String.mk ('/' :: intercalateSlash
        ((cleanStack true [] (splitOnSlash a.data)).reverse)) := by
      conv_lhs => rw [← hca]
      rw [pathClean_def a ha1, hra]
      simp only [if_true]
    have hcompA : pathComponents a
        = ((cleanStack true [] (splitOnSlash a.data)).reverse).map String.mk := by
      conv_lhs => rw [haeq]
      refine components_render_rooted _ ?_
      intro c hc
      rw [List.mem_reverse] at hc
      rw [hra] at hneA hslashA
      exact ⟨(hneA c hc).1, hslashA c hc⟩
    have hjeq : pathJoin a s = String.mk ('/' :: intercalateSlash
        ((s.data :: cleanStack true [] (splitOnSlash a.data)).reverse)) := by
      rw [hjoin, pathClean_def _ hWne, hrootW, hra]
      simp only [if_true]
      rw [hstW true]
    refine ⟨?_, ?_, ?_, ?_⟩
    · rw [hjeq, hcompA]
      rw [components_render_rooted _ ?goodW]
      case goodW =>
        intro c hc
        rw [List.mem_reverse] at hc
        rw [hra] at helemsW
        exact helemsW c hc
      simp [hmk]
    · rw [hjeq]
      intro hc
      have := congrArg String.data hc
      simp at this
    · rw [hjeq]
      intro hc
      have := congrArg String.data hc
      simp only [show ("." : String).data = ['.'] from rfl] at this
      injection this with h1 h2
      simp at h1
    · rw [hjoin]
      exact pathClean_idem _
  | false =>
    have hstAne : cleanStack false [] (splitOnSlash a.data) ≠ [] := by
      intro hc
      apply hadot
      conv_lhs => rw [← hca]
      rw [pathClean_def a ha1, hra, hc]
      simp [intercalateSlash]
    have houtAne : intercalateSlash
        ((cleanStack false [] (splitOnSlash a.data)).reverse) ≠ [] := by
      cases hsr : (cleanStack false [] (splitOnSlash a.data)).reverse with
      | nil => exact absurd (by simpa using congrArg List.reverse hsr) hstAne
      | cons c0 r0 =>
        obtain ⟨t0, ht0⟩ := intercalateSlash_head c0 r0
        rw [ht0]
        have hc0 : c0 ≠ [] := by
          rw [hra] at hneA
          exact (hneA c0 (List.mem_reverse.mp (by rw [hsr]; simp))).1
        cases hc0c : c0 with
        | nil => exact absurd hc0c hc0
        | cons x y => simp
    have haeq : a = String.mk (intercalateSlash
        ((cleanStack false [] (splitOnSlash a.data)).reverse)) := by
      conv_lhs => rw [← hca]
      rw [pathClean_def a ha1, hra]
      simp only [Bool.false_eq_true, if_false]
      rw [if_neg houtAne]
    have hcompA : pathComponents a
        = ((cleanStack false [] (splitOnSlash a.data)).reverse).map String.mk := by
      conv_lhs => rw [haeq]
      refine components_render_plain _ (by simpa using hstAne) ?_
      intro c hc
      rw [List.mem_reverse] at hc
      rw [hra] at hneA hslashA
      exact ⟨(hneA c hc).1, hslashA c hc⟩
    have houtJne : intercalateSlash
        ((s.data :: cleanStack false [] (splitOnSlash a.data)).reverse) ≠ [] := by
      rw [List.reverse_cons]
      cases hsr : (cleanStack false [] (splitOnSlash a.data)).reverse with
      | nil => exact absurd (by simpa using congrArg List.reverse hsr) hstAne
      | cons c0 r0 =>
        obtain ⟨t0, ht0⟩ := intercalateSlash_head c0 (r0 ++ [s.data])
        rw [List.cons_append, ht0]
        have hc0 : c0 ≠ [] := by
          rw [hra] at hneA
          exact (hneA c0 (List.mem_reverse.mp (by rw [hsr]; simp))).1
        cases hc0c : c0 with
        | nil => exact absurd hc0c hc0
        | cons x y => simp
    have hjeq : pathJoin a s = String.mk (intercalateSlash
        ((s.data :: cleanStack false [] (splitOnSlash a.data)).reverse)) := by
      rw [hjoin, pathClean_def _ hWne, hrootW, hra]
      simp only [Bool.false_eq_true, if_false]
      rw [hstW false]
      rw [if_neg houtJne]
    have hcompJ : pathComponents (pathJoin a s)
        = pathComponents a ++ [s] := by
      rw [hjeq, hcompA]
      rw [components_render_plain _ (by simp) ?goodW]
      case goodW =>
        intro c hc
        rw [List.mem_reverse] at hc
        rw [hra] at helemsW
        exact helemsW c hc
      simp [hmk]
    refine ⟨hcompJ, ?_, ?_, ?_⟩
    · rw [hjeq]
      intro hc
      exact houtJne (by simpa using congrArg String.data hc)
    · intro hc
      have h2 : pathComponents (pathJoin a s) = pathComponents "." := by rw [hc]
      rw [hcompJ] at h2
      have h3 : pathComponents "." = ["."] := by decide
      rw [h3] at h2
      have hlen := congrArg List.length h2
      simp only [List.length_append, List.length_singleton, List.length_cons,
        List.length_nil] at hlen
      have hanil : pathComponents a = [] := List.length_eq_zero.mp (by omega)
      rw [hanil] at h2
      simp only [List.nil_append, List.cons.injEq] at h2
      exact hs1 (by rw [h2.1])
    · rw [hjoin]
      exact pathClean_idem _

/-- Boolean form of `simpleName`, for computing well-formedness of trees. -/
def simpleNameB (s : String) : Bool :=
  !(s.data == []) && !(s.data == ['.']) && !(s.data == ['.', '.'])
    && !(s.data.contains '/')

theorem simpleNameB_spec (s : String) (h : simpleNameB s = true) : simpleName s := by
  simp only [simpleNameB, Bool.and_eq_true, Bool.not_eq_true', beq_eq_false_iff_ne,
    ne_eq] at h
  refine ⟨h.1.1.1, h.1.1.2, h.1.2, ?_⟩
  intro hc
  have h2 := h.2
  simp at h2
  exact h2 hc

/-- Whether a name sorts strictly before the first entry of a sibling chain. -/
def ltHead (name : String) : FsNode → Bool
  | .consDir n2 _ _ => strLt name n2
  | _ => true

/-- Sibling chains sorted strictly by `strLt`, everywhere in the tree. -/
def sortedNames : FsNode → Bool
  | .consDir name ch rest => ltHead name rest && sortedNames ch && sortedNames rest
  | _ => true

/-- Every entry name in the tree is a simple name. -/
def namesSimple : FsNode → Bool
  | .consDir name ch rest => simpleNameB name && namesSimple ch && namesSimple rest
  | _ => true

/-- Sibling spines are genuine chains: every `rest` is `nilDir` or another
`consDir`, never a bare file or broken entry. -/
def properChain : FsNode → Bool
  | .consDir _ ch rest => properChain ch && properChain rest && rest.isDirN
  | _ => true

/-- The well-formedness real directory trees enjoy: sorted sibling chains of
simple names. -/
def wellFormedFS (n : FsNode) : Bool :=
  sortedNames n && namesSimple n && properChain n

theorem lookup_setChild_ne (n : FsNode) (c d : String) (v : FsNode) (hne : d ≠ c) :
    lookupChild (setChild n c v) d = lookupChild n d := by
  induction n with
  | consDir name ch rest ihc ihr =>
    by_cases h1 : c = name
    · subst h1
      simp only [setChild, if_pos rfl, lookupChild, if_neg hne]
    · by_cases h2 : strLt c name = true
      · simp only [setChild, if_neg h1, if_pos h2, lookupChild, if_neg hne]
      · simp only [setChild, if_neg h1, if_neg h2, lookupChild, ihr]
  | _ => simp [setChild, lookupChild, hne]

theorem lookup_removeChild_ne (n : FsNode) (c d : String) (hne : d ≠ c) :
    lookupChild (removeChild n c) d = lookupChild n d := by
  induction n with
  | consDir name ch rest ihc ihr =>
    by_cases h1 : c = name
    · subst h1
      simp [removeChild, lookupChild, hne, ihr]
    · by_cases h3 : d = name
      · subst h3
        simp [removeChild, lookupChild, h1, ihr]
      · simp [removeChild, lookupChild, h1, h3, ihr]
  | _ => simp [removeChild, lookupChild]

theorem resolve_append (cs1 : List String) (m : FsNode) (cs2 : List String) :
    resolveNode m (cs1 ++ cs2)
      = match resolveNode m cs1 with
        | some nd => resolveNode nd cs2
        | none => none := by
  induction cs1 generalizing m with
  | nil => simp [resolveNode]
  | cons c rest ih =>
    simp only [List.cons_append, resolveNode]
    cases lookupChild m c with
    | none => rfl
    | some ch => exact ih ch

theorem resolve_removeAll_append (cs1 : List String) :
    ∀ (m nd : FsNode) (cs2 : List String), cs2 ≠ [] →
      resolveNode m cs1 = some nd →
      resolveNode (removeAllNode m (cs1 ++ cs2)) cs1
        = some (removeAllNode nd cs2) := by
  induction cs1 with
  | nil =>
    intro m nd cs2 h2 h
    simp only [resolveNode] at h
    cases h
    simp [resolveNode]
  | cons c rest ih =>
    intro m nd cs2 h2 h
    simp only [resolveNode] at h
    cases hlk : lookupChild m c with
    | none =>
      rw [hlk] at h
      exact Option.noConfusion h
    | some ch =>
      rw [hlk] at h
      obtain ⟨d, ds, hds⟩ : ∃ d ds, rest ++ cs2 = d :: ds := by
        cases hr : rest ++ cs2 with
        | nil =>
          rcases List.append_eq_nil.mp hr with ⟨-, h2c⟩
          exact absurd h2c h2
        | cons d ds => exact ⟨d, ds, rfl⟩
      have hmdir : ∃ name ch0 r0, m = .consDir name ch0 r0 := by
        cases m with
        | consDir name ch0 r0 => exact ⟨name, ch0, r0, rfl⟩
        | file ct tt => simp [lookupChild] at hlk
        | broken => simp [lookupChild] at hlk
        | nilDir => simp [lookupChild] at hlk
      obtain ⟨name, ch0, r0, hm⟩ := hmdir
      subst hm
      rw [show (c :: rest) ++ cs2 = c :: (rest ++ cs2) from rfl, hds]
      simp only [removeAllNode]
      rw [← hds]
      rw [hlk]
      simp only [resolveNode, lookup_setChild]
      exact ih ch nd cs2 h2 h

theorem resolve_removeAll_none (cs : List String) :
    ∀ (m : FsNode) (cs2 : List String), resolveNode m cs2 = none →
      resolveNode (removeAllNode m cs) cs2 = none := by
  induction cs with
  | nil =>
    intro m cs2 h
    rw [removeAllNode_nil]
    exact h
  | cons c rest ih =>
    intro m cs2 h
    cases m with
    | file ct tt => cases rest <;> exact h
    | broken => cases rest <;> exact h
    | nilDir =>
      cases rest with
      | nil =>
        simp only [removeAllNode, removeChild]
        exact h
      | cons c2 rest2 =>
        simp only [removeAllNode, lookupChild]
        exact h
    | consDir name ch r0 =>
      cases rest with
      | nil =>
        simp only [removeAllNode]
        cases cs2 with
        | nil => simp [resolveNode] at h
        | cons d ds =>
          simp only [resolveNode] at h ⊢
          by_cases hdc : d = c
          · subst hdc
            rw [lookup_removeChild]
          · rw [lookup_removeChild_ne _ _ _ hdc]
            cases hlk : lookupChild (.consDir name ch r0) d with
            | none => rfl
            | some ch2 =>
              rw [hlk] at h
              exact h
      | cons c2 rest2 =>
        simp only [removeAllNode]
        cases hlk : lookupChild (.consDir name ch r0) c with
        | none => exact h
        | some ch0 =>
          cases cs2 with
          | nil => simp [resolveNode] at h
          | cons d ds =>
            simp only [resolveNode] at h ⊢
            by_cases hdc : d = c
            · subst hdc
              rw [lookup_setChild]
              rw [hlk] at h
              exact ih ch0 ds h
            · rw [lookup_setChild_ne _ _ _ _ hdc]
              cases hlk2 : lookupChild (.consDir name ch r0) d with
              | none => rfl
              | some ch2 =>
                rw [hlk2] at h
                exact h


theorem setChild_isDir (n : FsNode) (c : String) (v : FsNode) :
    (setChild n c v).isDirN = true := by
  cases n with
  | consDir name ch rest =>
    simp only [setChild]
    by_cases h1 : c = name
    · simp [h1, FsNode.isDirN]
    · by_cases h2 : strLt c name = true
      · simp [h1, h2, FsNode.isDirN]
      · simp [h1, h2, FsNode.isDirN]
  | _ => rfl

theorem lookup_name_simple (n : FsNode) (c : String) (ch : FsNode)
    (hs : namesSimple n = true) (h : lookupChild n c = some ch) :
    simpleNameB c = true := by
  induction n with
  | consDir name ch0 rest ihc ihr =>
    simp only [namesSimple, Bool.and_eq_true] at hs
    simp only [lookupChild] at h
    by_cases h1 : c = name
    · subst h1
      exact hs.1.1
    · rw [if_neg h1] at h
      exact ihr hs.2 h
  | _ => simp [lookupChild] at h

theorem lookup_sorted (n : FsNode) (c : String) (ch : FsNode)
    (hs : sortedNames n = true) (h : lookupChild n c = some ch) :
    sortedNames ch = true := by
  induction n with
  | consDir name ch0 rest ihc ihr =>
    simp only [sortedNames, Bool.and_eq_true] at hs
    simp only [lookupChild] at h
    by_cases h1 : c = name
    · rw [if_pos h1] at h
      injection h with h2
      rw [← h2]
      exact hs.1.2
    · rw [if_neg h1] at h
      exact ihr hs.2 h
  | _ => simp [lookupChild] at h

theorem lookup_simple (n : FsNode) (c : String) (ch : FsNode)
    (hs : namesSimple n = true) (h : lookupChild n c = some ch) :
    namesSimple ch = true := by
  induction n with
  | consDir name ch0 rest ihc ihr =>
    simp only [namesSimple, Bool.and_eq_true] at hs
    simp only [lookupChild] at h
    by_cases h1 : c = name
    · rw [if_pos h1] at h
      injection h with h2
      rw [← h2]
      exact hs.1.2
    · rw [if_neg h1] at h
      exact ihr hs.2 h
  | _ => simp [lookupChild] at h

theorem lookup_proper (n : FsNode) (c : String) (ch : FsNode)
    (hs : properChain n = true) (h : lookupChild n c = some ch) :
    properChain ch = true := by
  induction n with
  | consDir name ch0 rest ihc ihr =>
    simp only [properChain, Bool.and_eq_true] at hs
    simp only [lookupChild] at h
    by_cases h1 : c = name
    · rw [if_pos h1] at h
      injection h with h2
      rw [← h2]
      exact hs.1.1
    · rw [if_neg h1] at h
      exact ihr hs.1.2 h
  | _ => simp [lookupChild] at h

theorem lookup_wf (n : FsNode) (c : String) (ch : FsNode)
    (hs : wellFormedFS n = true) (h : lookupChild n c = some ch) :
    wellFormedFS ch = true := by
  simp only [wellFormedFS, Bool.and_eq_true] at hs ⊢
  exact ⟨⟨lookup_sorted n c ch hs.1.1 h, lookup_simple n c ch hs.1.2 h⟩,
    lookup_proper n c ch hs.2 h⟩

theorem resolve_wf (cs : List String) :
    ∀ (n m : FsNode), wellFormedFS n = true → resolveNode n cs = some m →
      wellFormedFS m = true := by
  induction cs with
  | nil =>
    intro n m hw h
    simp only [resolveNode] at h
    injection h with h1
    rw [← h1]
    exact hw
  | cons c rest ih =>
    intro n m hw h
    simp only [resolveNode] at h
    cases hlk : lookupChild n c with
    | none =>
      rw [hlk] at h
      exact Option.noConfusion h
    | some ch =>
      rw [hlk] at h
      exact ih ch m (lookup_wf n c ch hw hlk) h

theorem ltHead_setChild (name c : String) (rest v : FsNode)
    (h1 : ltHead name rest = true) (h2 : strLt name c = true) :
    ltHead name (setChild rest c v) = true := by
  cases rest with
  | consDir n2 ch2 r2 =>
    simp only [setChild]
    by_cases ha : c = n2
    · simp [ha, ltHead, ha ▸ h2]
    · by_cases hb : strLt c n2 = true
      · simp [ha, hb, ltHead, h2]
      · simp only [ha, if_false, hb, if_false, ltHead] at h1 ⊢
        exact h1
  | file ct tt => simp [setChild, ltHead, h2]
  | broken => simp [setChild, ltHead, h2]
  | nilDir => simp [setChild, ltHead, h2]

theorem setChild_sorted (c : String) (v : FsNode) :
    ∀ (n : FsNode), sortedNames n = true → sortedNames v = true →
      sortedNames (setChild n c v) = true := by
  intro n
  induction n with
  | consDir name ch rest ihc ihr =>
    intro hn hv
    simp only [sortedNames, Bool.and_eq_true] at hn
    by_cases h1 : c = name
    · subst h1
      simp only [setChild, if_pos rfl, sortedNames, Bool.and_eq_true]
      exact ⟨⟨hn.1.1, hv⟩, hn.2⟩
    · by_cases h2 : strLt c name = true
      · simp only [setChild, if_neg h1, if_pos h2, sortedNames, ltHead,
          Bool.and_eq_true]
        exact ⟨⟨h2, hv⟩, ⟨⟨hn.1.1, hn.1.2⟩, hn.2⟩⟩
      · have h3 : strLt name c = true := by
          rcases strLt_total c name with ha | ha | ha
          · exact absurd ha h1
          · exact absurd ha h2
          · exact ha
        simp only [setChild, if_neg h1, if_neg h2, sortedNames, Bool.and_eq_true]
        exact ⟨⟨ltHead_setChild name c rest v hn.1.1 h3, hn.1.2⟩, ihr hn.2 hv⟩
  | file ct tt => intro _ hv; simp [setChild, sortedNames, ltHead, hv]
  | broken => intro _ hv; simp [setChild, sortedNames, ltHead, hv]
  | nilDir => intro _ hv; simp [setChild, sortedNames, ltHead, hv]

theorem ltHead_removeChild (name c : String) :
    ∀ (rest : FsNode), ltHead name rest = true → sortedNames rest = true →
      ltHead name (removeChild rest c) = true := by
  intro rest
  induction rest with
  | consDir n2 ch2 r2 ihc ihr =>
    intro h1 h2
    simp only [ltHead] at h1
    simp only [sortedNames, Bool.and_eq_true] at h2
    simp only [removeChild]
    by_cases ha : c = n2
    · rw [if_pos ha]
      refine ihr ?_ h2.2
      cases r2 with
      | consDir n3 ch3 r3 =>
        simp only [ltHead] at h2 ⊢
        exact strLt_trans h1 h2.1.1
      | file ct tt => rfl
      | broken => rfl
      | nilDir => rfl
    · rw [if_neg ha]
      simp [ltHead, h1]
  | file ct tt => intro h1 _; exact h1
  | broken => intro h1 _; exact h1
  | nilDir => intro h1 _; exact h1

theorem removeChild_sorted (c : String) :
    ∀ (n : FsNode), sortedNames n = true → sortedNames (removeChild n c) = true := by
  intro n
  induction n with
  | consDir name ch rest ihc ihr =>
    intro hn
    simp only [sortedNames, Bool.and_eq_true] at hn
    simp only [removeChild]
    by_cases ha : c = name
    · rw [if_pos ha]
      exact ihr hn.2
    · rw [if_neg ha]
      simp only [sortedNames, Bool.and_eq_true]
      exact ⟨⟨ltHead_removeChild name c rest hn.1.1 hn.2, hn.1.2⟩, ihr hn.2⟩
  | file ct tt => intro h; exact h
  | broken => intro h; exact h
  | nilDir => intro h; exact h

theorem setChild_simple (c : String) (v : FsNode) (hc : simpleNameB c = true) :
    ∀ (n : FsNode), namesSimple n = true → namesSimple v = true →
      namesSimple (setChild n c v) = true := by
  intro n
  induction n with
  | consDir name ch rest ihc ihr =>
    intro hn hv
    simp only [namesSimple, Bool.and_eq_true] at hn
    by_cases h1 : c = name
    · subst h1
      simp only [setChild, if_pos rfl, namesSimple, Bool.and_eq_true]
      exact ⟨⟨hc, hv⟩, hn.2⟩
    · by_cases h2 : strLt c name = true
      · simp only [setChild, if_neg h1, if_pos h2, namesSimple, Bool.and_eq_true]
        exact ⟨⟨hc, hv⟩, ⟨⟨hn.1.1, hn.1.2⟩, hn.2⟩⟩
      · simp only [setChild, if_neg h1, if_neg h2, namesSimple, Bool.and_eq_true]
        exact ⟨⟨hn.1.1, hn.1.2⟩, ihr hn.2 hv⟩
  | file ct tt => intro _ hv; simp [setChild, namesSimple, hc, hv]
  | broken => intro _ hv; simp [setChild, namesSimple, hc, hv]
  | nilDir => intro _ hv; simp [setChild, namesSimple, hc, hv]

theorem removeChild_simple (c : String) :
    ∀ (n : FsNode), namesSimple n = true → namesSimple (removeChild n c) = true := by
  intro n
  induction n with
  | consDir name ch rest ihc ihr =>
    intro hn
    simp only [namesSimple, Bool.and_eq_true] at hn
    simp only [removeChild]
    by_cases ha : c = name
    · rw [if_pos ha]
      exact ihr hn.2
    · rw [if_neg ha]
      simp only [namesSimple, Bool.and_eq_true]
      exact ⟨⟨hn.1.1, hn.1.2⟩, ihr hn.2⟩
  | file ct tt => intro h; exact h
  | broken => intro h; exact h
  | nilDir => intro h; exact h

theorem removeChild_isDir (c : String) :
    ∀ (n : FsNode), properChain n = true → (removeChild n c).isDirN = n.isDirN := by
  intro n
  induction n with
  | consDir name ch rest ihc ihr =>
    intro hn
    simp only [properChain, Bool.and_eq_true] at hn
    simp only [removeChild]
    by_cases ha : c = name
    · rw [if_pos ha, ihr hn.1.2, hn.2]
      rfl
    · rw [if_neg ha]
      rfl
  | file ct tt => intro _; rfl
  | broken => intro _; rfl
  | nilDir => intro _; rfl

theorem removeChild_proper (c : String) :
    ∀ (n : FsNode), properChain n = true → properChain (removeChild n c) = true := by
  intro n
  induction n with
  | consDir name ch rest ihc ihr =>
    intro hn
    simp only [properChain, Bool.and_eq_true] at hn
    simp only [removeChild]
    by_cases ha : c = name
    · rw [if_pos ha]
      exact ihr hn.1.2
    · rw [if_neg ha]
      simp only [properChain, Bool.and_eq_true]
      exact ⟨⟨hn.1.1, ihr hn.1.2⟩, by rw [removeChild_isDir c rest hn.1.2]; exact hn.2⟩
  | file ct tt => intro h; exact h
  | broken => intro h; exact h
  | nilDir => intro h; exact h

theorem setChild_proper (c : String) (v : FsNode) :
    ∀ (n : FsNode), properChain n = true → properChain v = true →
      properChain (setChild n c v) = true := by
  intro n
  induction n with
  | consDir name ch rest ihc ihr =>
    intro hn hv
    simp only [properChain, Bool.and_eq_true] at hn
    by_cases h1 : c = name
    · subst h1
      simp only [setChild, if_pos rfl, properChain, Bool.and_eq_true]
      exact ⟨⟨hv, hn.1.2⟩, hn.2⟩
    · by_cases h2 : strLt c name = true
      · simp only [setChild, if_neg h1, if_pos h2, properChain, Bool.and_eq_true,
          FsNode.isDirN]
        exact ⟨⟨hv, ⟨⟨hn.1.1, hn.1.2⟩, hn.2⟩⟩, trivial⟩
      · simp only [setChild, if_neg h1, if_neg h2, properChain, Bool.and_eq_true]
        exact ⟨⟨hn.1.1, ihr hn.1.2 hv⟩, setChild_isDir rest c v⟩
  | file ct tt => intro _ hv; simp [setChild, properChain, hv, FsNode.isDirN]
  | broken => intro _ hv; simp [setChild, properChain, hv, FsNode.isDirN]
  | nilDir => intro _ hv; simp [setChild, properChain, hv, FsNode.isDirN]

theorem removeAll_isDir (cs : List String) :
    ∀ (n : FsNode), properChain n = true →
      (removeAllNode n cs).isDirN = n.isDirN := by
  induction cs with
  | nil => intro n _; rw [removeAllNode_nil]
  | cons c rest ih =>
    intro n hn
    cases rest with
    | nil =>
      cases n with
      | file ct tt => rfl
      | broken => rfl
      | nilDir => exact removeChild_isDir c _ hn
      | consDir name ch r0 => exact removeChild_isDir c _ hn
    | cons c2 r2 =>
      cases n with
      | file ct tt => rfl
      | broken => rfl
      | nilDir => rfl
      | consDir name ch r0 =>
        simp only [removeAllNode]
        cases hlk : lookupChild (.consDir name ch r0) c with
        | none => rfl
        | some ch0 => rw [setChild_isDir]; rfl

theorem removeAll_wf (cs : List String) :
    ∀ (n : FsNode), wellFormedFS n = true →
      wellFormedFS (removeAllNode n cs) = true := by
  induction cs with
  | nil => intro n h; rw [removeAllNode_nil]; exact h
  | cons c rest ih =>
    intro n hn
    have hn3 := hn
    simp only [wellFormedFS, Bool.and_eq_true] at hn3
    cases rest with
    | nil =>
      cases n with
      | file ct tt => exact hn
      | broken => exact hn
      | nilDir =>
        simp only [wellFormedFS, Bool.and_eq_true]
        exact ⟨⟨removeChild_sorted c _ hn3.1.1, removeChild_simple c _ hn3.1.2⟩,
          removeChild_proper c _ hn3.2⟩
      | consDir name ch r0 =>
        simp only [wellFormedFS, Bool.and_eq_true]
        exact ⟨⟨removeChild_sorted c _ hn3.1.1, removeChild_simple c _ hn3.1.2⟩,
          removeChild_proper c _ hn3.2⟩
    | cons c2 r2 =>
      cases n with
      | file ct tt => exact hn
      | broken => exact hn
      | nilDir => exact hn
      | consDir name ch r0 =>
        simp only [removeAllNode]
        cases hlk : lookupChild (.consDir name ch r0) c with
        | none => exact hn
        | some ch0 =>
          have hch := lookup_wf _ c ch0 hn hlk
          have hv := ih ch0 hch
          have hv3 := hv
          simp only [wellFormedFS, Bool.and_eq_true] at hv3
          simp only [wellFormedFS, Bool.and_eq_true]
          refine ⟨⟨setChild_sorted c _ _ hn3.1.1 hv3.1.1,
            setChild_simple c _ (lookup_name_simple _ c ch0 hn3.1.2 hlk) _
              hn3.1.2 hv3.1.2⟩,
            setChild_proper c _ _ hn3.2 hv3.2⟩

theorem headEvent_fst (q : String) (m : FsNode) : (headEvent q m).1 = q := by
  cases m <;> rfl

theorem isDir_headEvent (q : String) (m : FsNode) (h : m.isDirN = true) :
    headEvent q m = (q, some true) := by
  cases m with
  | file ct tt => simp [FsNode.isDirN] at h
  | broken => simp [FsNode.isDirN] at h
  | nilDir => rfl
  | consDir a b c => rfl

theorem headEvent_removeAll (q : String) (cs : List String) (ch : FsNode)
    (hne : cs ≠ []) (hp : properChain ch = true) :
    headEvent q (removeAllNode ch cs) = headEvent q ch := by
  cases ch with
  | file ct tt =>
    cases cs with
    | nil => exact absurd rfl hne
    | cons c rest => cases rest <;> rfl
  | broken =>
    cases cs with
    | nil => exact absurd rfl hne
    | cons c rest => cases rest <;> rfl
  | nilDir =>
    rw [isDir_headEvent _ _ (by rw [removeAll_isDir cs _ hp]; rfl)]
    rfl
  | consDir a b c =>
    rw [isDir_headEvent _ _ (by rw [removeAll_isDir cs _ hp]; rfl)]
    rfl

theorem lookup_headEvent_mem (p c : String) :
    ∀ (n ch : FsNode), lookupChild n c = some ch →
      headEvent (pathJoin p c) ch ∈ walkSibs p n := by
  intro n
  induction n with
  | consDir name ch0 rest ihc ihr =>
    intro ch h
    simp only [lookupChild] at h
    by_cases h1 : c = name
    · rw [if_pos h1] at h
      injection h with h2
      subst h1
      rw [← h2]
      simp [walkSibs]
    · rw [if_neg h1] at h
      simp only [walkSibs, List.mem_append]
      exact Or.inr (ihr ch h)
  | _ => intro ch h; simp [lookupChild] at h

theorem lookup_walkSibs_mem (p c : String) (ev : String × Option Bool) :
    ∀ (n ch : FsNode), lookupChild n c = some ch →
      ev ∈ walkSibs (pathJoin p c) ch → ev ∈ walkSibs p n := by
  intro n
  induction n with
  | consDir name ch0 rest ihc ihr =>
    intro ch h hm
    simp only [lookupChild] at h
    by_cases h1 : c = name
    · rw [if_pos h1] at h
      injection h with h2
      subst h1
      rw [← h2] at hm
      simp only [walkSibs, List.mem_append, List.mem_cons]
      exact Or.inl (Or.inr hm)
    · rw [if_neg h1] at h
      simp only [walkSibs, List.mem_append]
      exact Or.inr (ihr ch h hm)
  | _ => intro ch h _; simp [lookupChild] at h

theorem setChild_walkSibs (p c : String) (v : FsNode) :
    ∀ (n : FsNode) (ev : String × Option Bool),
      ev ∈ walkSibs p (setChild n c v) →
      ev ∈ walkSibs p n ∨ ev = headEvent (pathJoin p c) v ∨
        ev ∈ walkSibs (pathJoin p c) v := by
  intro n
  induction n with
  | consDir name ch rest ihc ihr =>
    intro ev h
    simp only [setChild] at h
    by_cases h1 : c = name
    · rw [if_pos h1] at h
      simp only [walkSibs, List.mem_append, List.mem_cons] at h
      rcases h with (h2 | h2) | h2
      · subst h1
        exact Or.inr (Or.inl h2)
      · subst h1
        exact Or.inr (Or.inr h2)
      · exact Or.inl (by simp only [walkSibs, List.mem_append]; exact Or.inr h2)
    · rw [if_neg h1] at h
      by_cases h2 : strLt c name = true
      · rw [if_pos h2] at h
        simp only [walkSibs, List.mem_append, List.mem_cons] at h
        rcases h with (h3 | h3) | h3
        · exact Or.inr (Or.inl h3)
        · exact Or.inr (Or.inr h3)
        · exact Or.inl (by
            simp only [walkSibs, List.mem_append, List.mem_cons]
            exact h3)
      · rw [if_neg h2] at h
        simp only [walkSibs, List.mem_append, List.mem_cons] at h
        rcases h with (h3 | h3) | h3
        · exact Or.inl (by
            simp only [walkSibs, List.mem_append, List.mem_cons]
            exact Or.inl (Or.inl h3))
        · exact Or.inl (by
            simp only [walkSibs, List.mem_append, List.mem_cons]
            exact Or.inl (Or.inr h3))
        · rcases ihr ev h3 with h4 | h4 | h4
          · exact Or.inl (by
              simp only [walkSibs, List.mem_append]
              exact Or.inr h4)
          · exact Or.inr (Or.inl h4)
          · exact Or.inr (Or.inr h4)
  | file ct tt =>
    intro ev h
    simp only [setChild, walkSibs, List.mem_append, List.mem_cons] at h
    rcases h with (h2 | h2) | h2
    · exact Or.inr (Or.inl h2)
    · exact Or.inr (Or.inr h2)
    · simp at h2
  | broken =>
    intro ev h
    simp only [setChild, walkSibs, List.mem_append, List.mem_cons] at h
    rcases h with (h2 | h2) | h2
    · exact Or.inr (Or.inl h2)
    · exact Or.inr (Or.inr h2)
    · simp at h2
  | nilDir =>
    intro ev h
    simp only [setChild, walkSibs, List.mem_append, List.mem_cons] at h
    rcases h with (h2 | h2) | h2
    · exact Or.inr (Or.inl h2)
    · exact Or.inr (Or.inr h2)
    · simp at h2

theorem removeChild_walkSibs (p c : String) :
    ∀ (n : FsNode) (ev : String × Option Bool),
      ev ∈ walkSibs p (removeChild n c) → ev ∈ walkSibs p n := by
  intro n
  induction n with
  | consDir name ch rest ihc ihr =>
    intro ev h
    simp only [removeChild] at h
    by_cases h1 : c = name
    · rw [if_pos h1] at h
      simp only [walkSibs, List.mem_append]
      exact Or.inr (ihr ev h)
    · rw [if_neg h1] at h
      simp only [walkSibs, List.mem_append, List.mem_cons] at h ⊢
      rcases h with (h2 | h2) | h2
      · exact Or.inl (Or.inl h2)
      · exact Or.inl (Or.inr h2)
      · exact Or.inr (ihr ev h2)
  | file ct tt => intro ev h; exact h
  | broken => intro ev h; exact h
  | nilDir => intro ev h; exact h

theorem removeAll_walkSibs (cs : List String) :
    ∀ (n : FsNode) (p : String) (ev : String × Option Bool),
      properChain n = true → cs ≠ [] →
      ev ∈ walkSibs p (removeAllNode n cs) → ev ∈ walkSibs p n := by
  induction cs with
  | nil => intro n p ev _ hne _; exact absurd rfl hne
  | cons c rest ih =>
    intro n p ev hpc _ h
    cases rest with
    | nil =>
      cases n with
      | file ct tt => exact h
      | broken => exact h
      | nilDir => exact removeChild_walkSibs p c _ ev h
      | consDir name ch r0 => exact removeChild_walkSibs p c _ ev h
    | cons c2 r2 =>
      cases n with
      | file ct tt => exact h
      | broken => exact h
      | nilDir => exact h
      | consDir name ch r0 =>
        simp only [removeAllNode] at h
        cases hlk : lookupChild (.consDir name ch r0) c with
        | none => rw [hlk] at h; exact h
        | some ch0 =>
          rw [hlk] at h
          have hch0 : properChain ch0 = true := lookup_proper _ c ch0 hpc hlk
          rcases setChild_walkSibs p c _ _ ev h with h2 | h2 | h2
          · exact h2
          · rw [headEvent_removeAll (pathJoin p c) (c2 :: r2) ch0 (by simp) hch0] at h2
            rw [h2]
            exact lookup_headEvent_mem p c _ ch0 hlk
          · have h3 := ih ch0 (pathJoin p c) ev hch0 (by simp) h2
            exact lookup_walkSibs_mem p c ev _ ch0 hlk h3

theorem ltHead_lookup (name c : String) :
    ∀ (rest ch : FsNode), ltHead name rest = true → sortedNames rest = true →
      lookupChild rest c = some ch → strLt name c = true := by
  intro rest
  induction rest with
  | consDir n2 ch2 r2 ihc ihr =>
    intro ch h1 h2 h3
    simp only [ltHead] at h1
    simp only [sortedNames, Bool.and_eq_true] at h2
    simp only [lookupChild] at h3
    by_cases ha : c = n2
    · rw [ha]
      exact h1
    · rw [if_neg ha] at h3
      refine ihr ch ?_ h2.2 h3
      cases r2 with
      | consDir n3 ch3 r3 =>
        simp only [ltHead] at h2 ⊢
        exact strLt_trans h1 h2.1.1
      | file ct tt => rfl
      | broken => rfl
      | nilDir => rfl
  | _ => intro ch _ _ h3; simp [lookupChild] at h3

theorem walkSibs_resolve :
    ∀ (n : FsNode) (b : String) (ev : String × Option Bool),
      ev ∈ walkSibs b n → parsedClean b → sortedNames n = true →
      namesSimple n = true →
      ∃ chain m, chain ≠ [] ∧
        pathComponents ev.1 = pathComponents b ++ chain ∧ parsedClean ev.1 ∧
        resolveNode n chain = some m := by
  intro n
  induction n with
  | consDir name ch rest ihc ihr =>
    intro b ev hm hb hso hsi
    simp only [sortedNames, Bool.and_eq_true] at hso
    simp only [namesSimple, Bool.and_eq_true] at hsi
    have hsn : simpleName name := simpleNameB_spec name hsi.1.1
    obtain ⟨hcomp, hb2⟩ := pathJoin_cons_components b name hb hsn
    simp only [walkSibs, List.mem_append, List.mem_cons] at hm
    rcases hm with (h1 | h1) | h1
    · refine ⟨[name], ch, by simp, ?_, ?_, ?_⟩
      · rw [h1, headEvent_fst, hcomp]
      · rw [h1, headEvent_fst]
        exact hb2
      · simp [resolveNode, lookupChild]
    · obtain ⟨chain, m, hc1, hc2, hc3, hc4⟩ := ihc (pathJoin b name) ev h1 hb2
        hso.1.2 hsi.1.2
      refine ⟨name :: chain, m, by simp, ?_, hc3, ?_⟩
      · rw [hc2, hcomp]
        simp
      · simp only [resolveNode, lookupChild, if_pos rfl]
        exact hc4
    · obtain ⟨chain, m, hc1, hc2, hc3, hc4⟩ := ihr b ev h1 hb hso.2 hsi.2
      obtain ⟨c0, cr, hchain⟩ : ∃ c0 cr, chain = c0 :: cr := by
        cases chain with
        | nil => exact absurd rfl hc1
        | cons c0 cr => exact ⟨c0, cr, rfl⟩
      subst hchain
      refine ⟨c0 :: cr, m, by simp, hc2, hc3, ?_⟩
      simp only [resolveNode] at hc4 ⊢
      cases hlk : lookupChild rest c0 with
      | none =>
        rw [hlk] at hc4
        exact Option.noConfusion hc4
      | some ch2 =>
        rw [hlk] at hc4
        have hne : strLt name c0 = true := ltHead_lookup name c0 rest ch2
          hso.1.1 hso.2 hlk
        have hne2 : c0 ≠ name := fun hc => (strLt_ne hne) hc.symm
        simp only [lookupChild, if_neg hne2]
        rw [hlk]
        exact hc4
  | file ct tt => intro b ev hm _ _ _; simp [walkSibs] at hm
  | broken => intro b ev hm _ _ _; simp [walkSibs] at hm
  | nilDir => intro b ev hm _ _ _; simp [walkSibs] at hm

theorem runWalkCallback_skip (A L p : String) (i : Option Bool)
    (evs : List (String × Option Bool)) (h : strStartsWith p A = false) :
    runWalkCallback A L ((p, i) :: evs) = runWalkCallback A L evs := by
  simp [runWalkCallback, h]

theorem runWalkCallback_none_mem (A L q : String) :
    ∀ (evs : List (String × Option Bool)), (q, none) ∈ evs →
      strStartsWith q A = true → runWalkCallback A L evs = none := by
  intro evs
  induction evs with
  | nil => intro h _; simp at h
  | cons ev rest ih =>
    intro h hq
    rcases List.mem_cons.mp h with h1 | h1
    · rw [← h1]
      simp [runWalkCallback, hq]
    · obtain ⟨p, i⟩ := ev
      simp only [runWalkCallback]
      by_cases hp : strStartsWith p A = true
      · rw [if_pos hp]
        cases i with
        | none => rfl
        | some bb =>
          cases bb with
          | true => exact ih h1 hq
          | false => rw [ih h1 hq]
      · rw [if_neg hp]
        exact ih h1 hq

theorem runWalkCallback_file_mem (A L q : String) :
    ∀ (evs : List (String × Option Bool)) (out : List String),
      runWalkCallback A L evs = some out → (q, some false) ∈ evs →
      strStartsWith q A = true → trimPre q L ∈ out := by
  intro evs
  induction evs with
  | nil => intro out _ h _; simp at h
  | cons ev rest ih =>
    intro out hr h hq
    rcases List.mem_cons.mp h with h1 | h1
    · rw [← h1] at hr
      simp only [runWalkCallback, hq, if_pos] at hr
      cases hrec : runWalkCallback A L rest with
      | none => rw [hrec] at hr; exact Option.noConfusion hr
      | some acc =>
        rw [hrec] at hr
        injection hr with h2
        rw [← h2]
        simp
    · obtain ⟨p, i⟩ := ev
      simp only [runWalkCallback] at hr
      by_cases hp : strStartsWith p A = true
      · rw [if_pos hp] at hr
        cases i with
        | none => exact Option.noConfusion hr
        | some bb =>
          cases bb with
          | true => exact ih out hr h1 hq
          | false =>
            cases hrec : runWalkCallback A L rest with
            | none => rw [hrec] at hr; exact Option.noConfusion hr
            | some acc =>
              rw [hrec] at hr
              injection hr with h2
              rw [← h2]
              exact List.mem_cons_of_mem _ (ih acc hrec h1 hq)
      · rw [if_neg hp] at hr
        exact ih out hr h1 hq

theorem runWalkCallback_all_skip (A L : String) :
    ∀ (evs : List (String × Option Bool)),
      (∀ ev ∈ evs, strStartsWith ev.1 A = true → ev.2 = some true) →
      runWalkCallback A L evs = some [] := by
  intro evs
  induction evs with
  | nil => intro _; rfl
  | cons ev rest ih =>
    intro h
    obtain ⟨p, i⟩ := ev
    simp only [runWalkCallback]
    by_cases hp : strStartsWith p A = true
    · rw [if_pos hp]
      have h2 := h (p, i) (List.mem_cons_self _ _) hp
      simp only at h2
      rw [h2]
      exact ih (fun e he hs => h e (List.mem_cons_of_mem _ he) hs)
    · rw [if_neg hp]
      exact ih (fun e he hs => h e (List.mem_cons_of_mem _ he) hs)

theorem runWalkCallback_out_mem (A L : String) :
    ∀ (evs : List (String × Option Bool)) (out : List String),
      runWalkCallback A L evs = some out →
      ∀ x ∈ out, ∃ q, (q, some false) ∈ evs ∧ strStartsWith q A = true ∧
        x = trimPre q L := by
  intro evs
  induction evs with
  | nil =>
    intro out hr x hx
    simp only [runWalkCallback] at hr
    injection hr with h1
    rw [← h1] at hx
    simp at hx
  | cons ev rest ih =>
    intro out hr x hx
    obtain ⟨p, i⟩ := ev
    simp only [runWalkCallback] at hr
    by_cases hp : strStartsWith p A = true
    · rw [if_pos hp] at hr
      cases i with
      | none => exact Option.noConfusion hr
      | some bb =>
        cases bb with
        | true =>
          obtain ⟨q, hq1, hq2, hq3⟩ := ih out hr x hx
          exact ⟨q, List.mem_cons_of_mem _ hq1, hq2, hq3⟩
        | false =>
          cases hrec : runWalkCallback A L rest with
          | none => rw [hrec] at hr; exact Option.noConfusion hr
          | some acc =>
            rw [hrec] at hr
            injection hr with h2
            rw [← h2] at hx
            rcases List.mem_cons.mp hx with h3 | h3
            · exact ⟨p, List.mem_cons_self _ _, hp, h3⟩
            · obtain ⟨q, hq1, hq2, hq3⟩ := ih acc hrec x h3
              exact ⟨q, List.mem_cons_of_mem _ hq1, hq2, hq3⟩
    · rw [if_neg hp] at hr
      obtain ⟨q, hq1, hq2, hq3⟩ := ih out hr x hx
      exact ⟨q, List.mem_cons_of_mem _ hq1, hq2, hq3⟩

theorem Remove_fst (fs fs2 : FsNode) (r p : String) (oe : Option GoErr)
    (h : Remove fs r p = (fs2, oe)) :
    fs2 = fs ∨ fs2 = removeAllNode fs (pathComponents (pathJoin r p)) := by
  simp only [Remove] at h
  cases hex : Exist fs r p with
  | error e =>
    rw [hex] at h
    injection h with h1 h2
    exact Or.inl h1.symm
  | ok bb =>
    cases bb with
    | false =>
      rw [hex] at h
      injection h with h1 h2
      exact Or.inl h1.symm
    | true =>
      rw [hex] at h
      injection h with h1 h2
      exact Or.inr h1.symm

theorem remove_none_resolve (fs fs2 : FsNode) (r p : String)
    (hq2 : pathComponents (pathJoin r p) ≠ [])
    (h : Remove fs r p = (fs2, none)) :
    resolveNode fs2 (pathComponents (pathJoin r p)) = none := by
  simp only [Remove] at h
  cases hex : Exist fs r p with
  | error e =>
    rw [hex] at h
    injection h with h1 h2
    exact Option.noConfusion h2
  | ok bb =>
    cases bb with
    | true =>
      rw [hex] at h
      injection h with h1 h2
      rw [← h1]
      exact removeAllNode_resolve _ fs hq2
    | false =>
      rw [hex] at h
      injection h with h1 h2
      rw [← h1]
      simp only [Exist] at hex
      cases hst : statFS fs (pathJoin r p) with
      | ok s =>
        simp only [hst] at hex
        injection hex with h3
        exact Bool.noConfusion h3
      | error e =>
        simp only [hst] at hex
        by_cases hne : e.isNotExist = true
        · simp only [statFS] at hst
          by_cases hq0 : pathJoin r p = ""
          · exact absurd (by rw [hq0]; rfl) hq2
          · rw [if_neg hq0] at hst
            cases hres : resolveNode fs (pathComponents (pathJoin r p)) with
            | none => rfl
            | some m =>
              cases m with
              | file ct tt =>
                simp only [hres] at hst
                exact Except.noConfusion hst
              | broken =>
                simp only [hres] at hst
                injection hst with h3
                rw [← h3] at hne
                simp [GoErr.isNotExist] at hne
              | nilDir =>
                simp only [hres] at hst
                exact Except.noConfusion hst
              | consDir a b c =>
                simp only [hres] at hst
                exact Except.noConfusion hst
        · rw [if_neg hne] at hex
          exact Except.noConfusion hex

theorem multiRemoveLoop_resolve_none (r : String) (cs : List String) :
    ∀ (ps : List String) (fs fs' : FsNode) (es : List GoErr),
      resolveNode fs cs = none →
      multiRemoveLoop r fs ps = (fs', es) →
      resolveNode fs' cs = none := by
  intro ps
  induction ps with
  | nil =>
    intro fs fs' es hres h
    simp only [multiRemoveLoop] at h
    injection h with h1 h2
    rw [← h1]
    exact hres
  | cons p0 rest ih =>
    intro fs fs' es hres h
    simp only [multiRemoveLoop] at h
    cases hrm : Remove fs r p0 with
    | mk fs2 oe =>
      have hres2 : resolveNode fs2 cs = none := by
        rcases Remove_fst fs fs2 r p0 oe hrm with h1 | h1
        · rw [h1]; exact hres
        · rw [h1]; exact resolve_removeAll_none _ fs cs hres
      simp only [hrm] at h
      cases oe with
      | none => exact ih fs2 fs' es hres2 h
      | some e =>
        cases hr' : multiRemoveLoop r fs2 rest with
        | mk a b =>
          simp only [hr'] at h
          injection h with h1 h2
          rw [← h1]
          exact ih fs2 a b hres2 hr'

theorem multiRemoveLoop_targets (r : String) :
    ∀ (ps : List String) (fs fs' : FsNode),
      multiRemoveLoop r fs ps = (fs', []) →
      (∀ p ∈ ps, pathComponents (pathJoin r p) ≠ []) →
      ∀ p ∈ ps, resolveNode fs' (pathComponents (pathJoin r p)) = none := by
  intro ps
  induction ps with
  | nil => intro fs fs' _ _ p hp; simp at hp
  | cons p0 rest ih =>
    intro fs fs' h hq p hp
    simp only [multiRemoveLoop] at h
    cases hrm : Remove fs r p0 with
    | mk fs2 oe =>
      simp only [hrm] at h
      cases oe with
      | some e =>
        cases hr' : multiRemoveLoop r fs2 rest with
        | mk a b =>
          simp only [hr'] at h
          injection h with h1 h2
          exact List.noConfusion h2
      | none =>
        rcases List.mem_cons.mp hp with h1 | h1
        · subst h1
          have h2 := remove_none_resolve fs fs2 r p
            (hq p (List.mem_cons_self _ _)) hrm
          exact multiRemoveLoop_resolve_none r _ rest fs2 fs' [] h2 h
        · exact ih fs2 fs' h (fun q hq2 => hq q (List.mem_cons_of_mem _ hq2)) p h1

theorem multiRemoveLoop_below (r D : String) :
    ∀ (ps : List String) (fs fs' n : FsNode) (es : List GoErr),
      (∀ p ∈ ps, ∃ chain, chain ≠ [] ∧
          pathComponents (pathJoin r p) = pathComponents D ++ chain) →
      wellFormedFS fs = true →
      multiRemoveLoop r fs ps = (fs', es) →
      resolveNode fs (pathComponents D) = some n →
      ∃ n', resolveNode fs' (pathComponents D) = some n' ∧
        wellFormedFS fs' = true ∧
        ∀ ev ∈ walkSibs D n', ev ∈ walkSibs D n := by
  intro ps
  induction ps with
  | nil =>
    intro fs fs' n es _ hwf h hres
    simp only [multiRemoveLoop] at h
    injection h with h1 h2
    rw [← h1]
    exact ⟨n, hres, hwf, fun ev he => he⟩
  | cons p0 rest ih =>
    intro fs fs' n es htg hwf h hres
    simp only [multiRemoveLoop] at h
    cases hrm : Remove fs r p0 with
    | mk fs2 oe =>
      simp only [hrm] at h
      have hstep : ∃ n2, resolveNode fs2 (pathComponents D) = some n2 ∧
          wellFormedFS fs2 = true ∧
          ∀ ev ∈ walkSibs D n2, ev ∈ walkSibs D n := by
        rcases Remove_fst fs fs2 r p0 oe hrm with h1 | h1
        · subst h1
          exact ⟨n, hres, hwf, fun ev he => he⟩
        · obtain ⟨chain, hc1, hc2⟩ := htg p0 (List.mem_cons_self _ _)
          have hpc : properChain n = true := by
            have := resolve_wf _ fs n hwf hres
            simp only [wellFormedFS, Bool.and_eq_true] at this
            exact this.2
          refine ⟨removeAllNode n chain, ?_, ?_, ?_⟩
          · rw [h1, hc2]
            exact resolve_removeAll_append _ fs n chain hc1 hres
          · rw [h1]
            exact removeAll_wf _ fs hwf
          · intro ev he
            exact removeAll_walkSibs chain n D ev hpc hc1 he
      obtain ⟨n2, hn2a, hn2b, hn2c⟩ := hstep
      have htg2 : ∀ p ∈ rest, ∃ chain, chain ≠ [] ∧
          pathComponents (pathJoin r p) = pathComponents D ++ chain :=
        fun q hq => htg q (List.mem_cons_of_mem _ hq)
      cases oe with
      | none =>
        obtain ⟨n', ha, hb, hc⟩ := ih fs2 fs' n2 es htg2 hn2b h hn2a
        exact ⟨n', ha, hb, fun ev he => hn2c ev (hc ev he)⟩
      | some e =>
        cases hr' : multiRemoveLoop r fs2 rest with
        | mk a b =>
          simp only [hr'] at h
          injection h with h1 h2
          obtain ⟨n', ha, hb, hc⟩ := ih fs2 a n2 b htg2 hn2b hr' hn2a
          rw [← h1]
          exact ⟨n', ha, hb, fun ev he => hn2c ev (hc ev he)⟩

set_option maxHeartbeats 1600000 in
/-- C9 (amended): `RemoveWithPrefix` is the recursive listing composed with
`MultiRemove`, and it genuinely clears the prefix — a subsequent recursive
`ListWithPrefix` of the same prefix lists nothing — over every well-formed
tree, provided the configured root is a string the walked absolute paths
literally start with, so that each listed path re-joins to the walked path
it was trimmed from (`path.Join(root, TrimPrefix(p, root)) = p`; the proviso
`removeWithPrefix_relative_root_cex` shows a relative root violating), the
walked parent directory is a clean path other than `"."`, that parent does
not itself carry the joined prefix, and the call returned a nil error. -/
theorem removeWithPrefix_clears_matches (fs fs' : FsNode) (r x : String)
    (hwf : wellFormedFS fs = true)
    (hD : parsedClean (pathDir (pathJoin r x)))
    (hbase : strStartsWith (pathDir (pathJoin r x)) (pathJoin r x) = false)
    (hre : ((walkFS fs (pathDir (pathJoin r x))).all
        (fun ev => pathJoin r (trimPre ev.1 r) == ev.1)) = true)
    (h : RemoveWithPrefix fs r x = .res fs' none) :
    ListWithPrefix fs' r x true = .res [] [] none := by
  cases hlst : ListWithPrefix fs r x true with
  | panicked =>
    simp only [RemoveWithPrefix, hlst] at h
    exact OpResult.noConfusion h
  | res paths ts oe =>
    cases oe with
    | some e =>
      simp only [RemoveWithPrefix, hlst] at h
      injection h with h1 h2
      exact Option.noConfusion h2
    | none =>
      cases hloop : multiRemoveLoop r fs paths with
      | mk fs2 es =>
        cases es with
        | cons e es2 =>
          simp only [RemoveWithPrefix, hlst, MultiRemove, hloop] at h
          injection h with h1 h2
          exact Option.noConfusion h2
        | nil =>
          simp only [RemoveWithPrefix, hlst, MultiRemove, hloop] at h
          injection h with h1 h2
          rw [ListWithPrefix_true_eq] at hlst
          cases hrwc : runWalkCallback (pathJoin r x) r
              (walkFS fs (pathDir (pathJoin r x))) with
          | none =>
            simp only [hrwc] at hlst
            exact ListResult.noConfusion hlst
          | some fps =>
            simp only [hrwc] at hlst
            cases hmt : modTimeLoop fs r fps with
            | error e2 =>
              simp only [hmt] at hlst
              injection hlst with ha hb hc
              exact Option.noConfusion hc
            | ok tss =>
              simp only [hmt] at hlst
              injection hlst with ha hb hc
              rw [ListWithPrefix_true_eq]
              cases hres : resolveNode fs
                  (pathComponents (pathDir (pathJoin r x))) with
              | none =>
                have hwalk : walkFS fs (pathDir (pathJoin r x))
                    = [(pathDir (pathJoin r x), none)] := by
                  simp [walkFS, hres]
                rw [hwalk, runWalkCallback_skip _ _ _ _ _ hbase] at hrwc
                simp only [runWalkCallback] at hrwc
                injection hrwc with h4
                have hpaths : paths = [] := by rw [← ha, ← h4]
                rw [hpaths] at hloop
                simp only [multiRemoveLoop] at hloop
                injection hloop with h5 h6
                have hfs' : fs' = fs := by rw [← h1, ← h5]
                rw [hfs', hwalk, runWalkCallback_skip _ _ _ _ _ hbase]
                rfl
              | some n =>
                have hwalk : walkFS fs (pathDir (pathJoin r x))
                    = headEvent (pathDir (pathJoin r x)) n
                      :: walkSibs (pathDir (pathJoin r x)) n := by
                  simp [walkFS, hres]
                have hhead : headEvent (pathDir (pathJoin r x)) n
                    = (pathDir (pathJoin r x),
                        (headEvent (pathDir (pathJoin r x)) n).2) := by
                  cases n <;> rfl
                have hrwc2 : runWalkCallback (pathJoin r x) r
                    (walkSibs (pathDir (pathJoin r x)) n) = some fps := by
                  rw [hwalk, hhead, runWalkCallback_skip _ _ _ _ _ hbase] at hrwc
                  exact hrwc
                have hnwf : wellFormedFS n = true := resolve_wf _ fs n hwf hres
                have hnso : sortedNames n = true := by
                  have h0 := hnwf
                  simp only [wellFormedFS, Bool.and_eq_true] at h0
                  exact h0.1.1
                have hnsi : namesSimple n = true := by
                  have h0 := hnwf
                  simp only [wellFormedFS, Bool.and_eq_true] at h0
                  exact h0.1.2
                have hre2 : ∀ ev ∈ walkFS fs (pathDir (pathJoin r x)),
                    pathJoin r (trimPre ev.1 r) = ev.1 := by
                  intro ev hev
                  exact eq_of_beq (List.all_eq_true.mp hre ev hev)
                have htg : ∀ p ∈ paths, ∃ chain, chain ≠ [] ∧
                    pathComponents (pathJoin r p)
                      = pathComponents (pathDir (pathJoin r x)) ++ chain := by
                  intro p hp
                  rw [← ha] at hp
                  obtain ⟨q, hq1, hq2, hq3⟩ :=
                    runWalkCallback_out_mem _ _ _ fps hrwc2 p hp
                  obtain ⟨chain, m, hc1, hc2, hc3, hc4⟩ := walkSibs_resolve n
                    (pathDir (pathJoin r x)) (q, some false) hq1 hD hnso hnsi
                  have hq4 : pathJoin r p = q := by
                    rw [hq3]
                    exact hre2 (q, some false)
                      (by rw [hwalk]; exact List.mem_cons_of_mem _ hq1)
                  refine ⟨chain, hc1, ?_⟩
                  rw [hq4]
                  exact hc2
                have htg2 : ∀ p ∈ paths,
                    pathComponents (pathJoin r p) ≠ [] := by
                  intro p hp
                  obtain ⟨chain, hc1, hc2⟩ := htg p hp
                  rw [hc2]
                  intro hcc
                  exact hc1 (List.append_eq_nil.mp hcc).2
                obtain ⟨n', hra, hrb, hrc2⟩ := multiRemoveLoop_below r
                  (pathDir (pathJoin r x)) paths fs fs2 n [] htg hwf hloop hres
                have hgone := multiRemoveLoop_targets r paths fs fs2 hloop htg2
                have hskip : ∀ ev ∈ walkSibs (pathDir (pathJoin r x)) n',
                    strStartsWith ev.1 (pathJoin r x) = true →
                      ev.2 = some true := by
                  intro ev hev hm
                  have hev0 := hrc2 ev hev
                  obtain ⟨q, i⟩ := ev
                  cases i with
                  | none =>
                    have h5 := runWalkCallback_none_mem (pathJoin r x) r q _
                      hev0 hm
                    rw [h5] at hrwc2
                    exact Option.noConfusion hrwc2
                  | some bb =>
                    cases bb with
                    | true => rfl
                    | false =>
                      have hql : trimPre q r ∈ paths := by
                        rw [← ha]
                        exact runWalkCallback_file_mem _ _ q _ fps hrwc2 hev0 hm
                      have hq4 : pathJoin r (trimPre q r) = q :=
                        hre2 (q, some false)
                          (by rw [hwalk]; exact List.mem_cons_of_mem _ hev0)
                      have hnone := hgone (trimPre q r) hql
                      rw [hq4] at hnone
                      have hn'wf : wellFormedFS n' = true :=
                        resolve_wf _ fs2 n' hrb hra
                      have hn'so : sortedNames n' = true := by
                        have h0 := hn'wf
                        simp only [wellFormedFS, Bool.and_eq_true] at h0
                        exact h0.1.1
                      have hn'si : namesSimple n' = true := by
                        have h0 := hn'wf
                        simp only [wellFormedFS, Bool.and_eq_true] at h0
                        exact h0.1.2
                      obtain ⟨chain, m, hc1, hc2, hc3, hc4⟩ :=
                        walkSibs_resolve n' (pathDir (pathJoin r x))
                          (q, some false) hev hD hn'so hn'si
                      have h6 : resolveNode fs2 (pathComponents q) = some m := by
                        rw [hc2, resolve_append, hra]
                        exact hc4
                      rw [hnone] at h6
                      exact Option.noConfusion h6
                have hhead' : headEvent (pathDir (pathJoin r x)) n'
                    = (pathDir (pathJoin r x),
                        (headEvent (pathDir (pathJoin r x)) n').2) := by
                  cases n' <;> rfl
                have hwalk' : walkFS fs2 (pathDir (pathJoin r x))
                    = headEvent (pathDir (pathJoin r x)) n'
                      :: walkSibs (pathDir (pathJoin r x)) n' := by
                  simp [walkFS, hra]
                have hcall : runWalkCallback (pathJoin r x) r
                    (walkFS fs2 (pathDir (pathJoin r x))) = some [] := by
                  rw [hwalk', hhead', runWalkCallback_skip _ _ _ _ _ hbase]
                  exact runWalkCallback_all_skip _ _ _ hskip
                have hfs' : fs' = fs2 := h1.symm
                rw [hfs', hcall]
                rfl

/-- Witness: the general clearing theorem applied to the spec's sample tree
with the clean absolute root `/root/` and prefix `a/b`. -/
theorem removeWithPrefix_clears_matches_witness :
    ListWithPrefix sampleTreeRemoved "/root/" "a/b" true = .res [] [] none :=
  removeWithPrefix_clears_matches sampleTree sampleTreeRemoved "/root/" "a/b"
    (by rfl) ⟨by decide, by decide, by rfl⟩ (by rfl) (by rfl) (by rfl)
